import Mathlib

/-!
# Verification of the strkit string-utility library

A shallow embedding of the `strkit` TypeScript library (`src/index.ts`)
together with proofs about its specified behaviour.

Strings are modelled as `List Char` (sequences of Unicode code points).
The Unicode character property tables (`\p{Lu}`, `\p{Ll}`, `\p{L}`,
`\p{Emoji_Presentation}`, `\p{Extended_Pictographic}`) and the platform
case mappings (`toUpperCase`/`toLowerCase`) are platform primitives: the
segmenter and case converters are parameterised over a `CharTable`
bundling them, and `stdTable` instantiates the bundle with tables that
agree with Unicode on the ASCII range and on the emoji used by the
repository's examples.
-/

namespace Strkit

/-- The character-classification and case-mapping data supplied by the
platform's Unicode layer.  `toUpperChar`/`toLowerChar` are string-valued
per code point, mirroring JavaScript's `toUpperCase`/`toLowerCase`. -/
structure CharTable where
  isUpper : Char → Bool
  isLower : Char → Bool
  isLetter : Char → Bool
  isEmojiPresentation : Char → Bool
  isExtendedPictographic : Char → Bool
  toUpperChar : Char → List Char
  toLowerChar : Char → List Char

/-- The literal character class `[0-9]` of `CASE_SPLIT_PATTERN`
(ASCII decimal digits only). -/
def isDigitChar (c : Char) : Bool := '0' ≤ c && c ≤ '9'

/-- Alternative 1 of `CASE_SPLIT_PATTERN`: `\p{Lu}?\p{Ll}+`, with the
greedy optional uppercase tried first. -/
def alt1 (T : CharTable) : List Char → Option (List Char × List Char)
  | [] => none
  | c :: rest =>
    if T.isUpper c && !(rest.takeWhile T.isLower).isEmpty then
      some (c :: rest.takeWhile T.isLower, rest.dropWhile T.isLower)
    else if T.isLower c then
      some ((c :: rest).takeWhile T.isLower, (c :: rest).dropWhile T.isLower)
    else none

/-- Alternative 2 of `CASE_SPLIT_PATTERN`: `[0-9]+`. -/
def alt2 (l : List Char) : Option (List Char × List Char) :=
  if (l.takeWhile isDigitChar).isEmpty then none
  else some (l.takeWhile isDigitChar, l.dropWhile isDigitChar)

/-- Alternative 3 of `CASE_SPLIT_PATTERN`: `\p{Lu}+(?!\p{Ll})`.  The
greedy run backtracks exactly one character when the maximal uppercase
run is followed by a lowercase letter (after giving up one character the
lookahead sees an uppercase letter and succeeds); a length-one run
followed by lowercase fails. -/
def alt3 (T : CharTable) (l : List Char) : Option (List Char × List Char) :=
  let run := l.takeWhile T.isUpper
  let rest := l.dropWhile T.isUpper
  if run.isEmpty then none
  else
    match rest with
    | [] => some (run, [])
    | d :: _ =>
      if T.isLower d then
        if 2 ≤ run.length then
          some (run.take (run.length - 1), run.drop (run.length - 1) ++ rest)
        else none
      else some (run, rest)

/-- Alternative 4 of `CASE_SPLIT_PATTERN`: `\p{Emoji_Presentation}`
(a single code point). -/
def alt4 (T : CharTable) : List Char → Option (List Char × List Char)
  | [] => none
  | c :: rest => if T.isEmojiPresentation c then some ([c], rest) else none

/-- Alternative 5 of `CASE_SPLIT_PATTERN`: `\p{Extended_Pictographic}`
(a single code point). -/
def alt5 (T : CharTable) : List Char → Option (List Char × List Char)
  | [] => none
  | c :: rest => if T.isExtendedPictographic c then some ([c], rest) else none

/-- Alternative 6 of `CASE_SPLIT_PATTERN`: `\p{L}+`. -/
def alt6 (T : CharTable) (l : List Char) : Option (List Char × List Char) :=
  if (l.takeWhile T.isLetter).isEmpty then none
  else some (l.takeWhile T.isLetter, l.dropWhile T.isLetter)

/-- One attempt of `CASE_SPLIT_PATTERN` at the current position: the six
alternatives are tried in the pattern's order (JavaScript alternation is
leftmost-first).  Returns the matched token and the remaining input. -/
def matchAt (T : CharTable) (l : List Char) : Option (List Char × List Char) :=
  ((((((alt1 T l).orElse fun _ => alt2 l).orElse fun _ =>
      alt3 T l).orElse fun _ => alt4 T l).orElse fun _ =>
      alt5 T l).orElse fun _ => alt6 T l)

/-- The global scan of `str.match(pattern)` with the `g` flag: attempt a
match at each position, emit it and continue after it, otherwise advance
one character.  `fuel` bounds the recursion; `fuel = l.length` always
suffices because every step consumes at least one character. -/
def scanAux (T : CharTable) : Nat → List Char → List (List Char)
  | 0, _ => []
  | _ + 1, [] => []
  | fuel + 1, c :: rest =>
    match matchAt T (c :: rest) with
    | some (tok, rest') => tok :: scanAux T fuel rest'
    | none => scanAux T fuel rest

/-- `words` from `src/index.ts`: all matches of `CASE_SPLIT_PATTERN` in
the input, in order. -/
def words (T : CharTable) (l : List Char) : List (List Char) :=
  scanAux T l.length l

/-- JavaScript `String.prototype.toLowerCase`, per code point. -/
def lowerStr (T : CharTable) (l : List Char) : List Char :=
  l.flatMap T.toLowerChar

/-- JavaScript `String.prototype.toUpperCase`, per code point. -/
def upperStr (T : CharTable) (l : List Char) : List Char :=
  l.flatMap T.toUpperChar

/-- `capitalize` from `src/index.ts`: uppercase the first character and
lowercase the remainder of the whole string. -/
def capitalize (T : CharTable) : List Char → List Char
  | [] => []
  | c :: rest => T.toUpperChar c ++ lowerStr T rest

/-- Join a token list with a single separator character
(`Array.prototype.join` with a one-character separator). -/
def joinSep (sep : Char) : List (List Char) → List Char
  | [] => []
  | [t] => t
  | t :: ts => t ++ sep :: joinSep sep ts

/-- `camelCase` from `src/index.ts`: first token lowercased, remaining
tokens capitalized, joined with the empty string. -/
def camelCase (T : CharTable) (l : List Char) : List Char :=
  match words T l with
  | [] => []
  | t :: ts => lowerStr T t ++ (ts.map (capitalize T)).flatten

/-- `pascalCase` from `src/index.ts`: every token capitalized, joined
with the empty string. -/
def pascalCase (T : CharTable) (l : List Char) : List Char :=
  ((words T l).map (capitalize T)).flatten

/-- `snakeCase` from `src/index.ts`: every token lowercased, joined with
underscores. -/
def snakeCase (T : CharTable) (l : List Char) : List Char :=
  joinSep '_' ((words T l).map (lowerStr T))

/-- `kebabCase` from `src/index.ts`: every token lowercased, joined with
hyphens. -/
def kebabCase (T : CharTable) (l : List Char) : List Char :=
  joinSep '-' ((words T l).map (lowerStr T))

/-- The `Emoji_Presentation` table restricted to the emoji appearing in
the repository's examples. -/
def emojiPresentationChars : List Char := ['🔥', '😅']

/-- The `Extended_Pictographic` table restricted to the emoji appearing
in the repository's examples. -/
def extendedPictographicChars : List Char := ['🔥', '😅']

/-- The platform Unicode tables, instantiated so that they agree with
Unicode on the ASCII range (`Char.isUpper` etc. are exactly the ASCII
predicates) and on the example emoji.  Case mappings are the ASCII
single-character maps. -/
def stdTable : CharTable where
  isUpper := Char.isUpper
  isLower := Char.isLower
  isLetter := Char.isAlpha
  isEmojiPresentation := fun c => emojiPresentationChars.contains c
  isExtendedPictographic := fun c => extendedPictographicChars.contains c
  toUpperChar := fun c => [c.toUpper]
  toLowerChar := fun c => [c.toLower]

/-- Build the fill text of `padStart`/`padEnd`: the fill string repeated
as needed and truncated to exactly `n` characters. -/
def repeatTo (n : Nat) (fill : List Char) : List Char :=
  ((List.replicate n fill).flatten).take n

/-- JavaScript `String.prototype.padStart`.  An empty pad string or a
target not exceeding the current length returns the string unchanged. -/
def padStartJS (s : List Char) (target : Int) (fill : List Char) : List Char :=
  if fill = [] ∨ target ≤ (s.length : Int) then s
  else repeatTo (target.toNat - s.length) fill ++ s

/-- JavaScript `String.prototype.padEnd`. -/
def padEndJS (s : List Char) (target : Int) (fill : List Char) : List Char :=
  if fill = [] ∨ target ≤ (s.length : Int) then s
  else s ++ repeatTo (target.toNat - s.length) fill

/-- `pad` from `src/index.ts`:
`str.padStart(Math.floor((length - str.length) / 2) + str.length, chars).padEnd(length, chars)`.
`Int.fdiv` is `Math.floor` division. -/
def pad (s : List Char) (len : Int) (fill : List Char) : List Char :=
  padEndJS
    (padStartJS s (Int.fdiv (len - (s.length : Int)) 2 + (s.length : Int)) fill)
    len fill

/-- The JavaScript whitespace class trimmed by the built-in
`trim`/`trimStart`/`trimEnd` (WhiteSpace plus LineTerminator). -/
def jsWhitespace (c : Char) : Bool :=
  c ∈ [' ', '\t', '\n', '\r', '\x0b', '\x0c', ' ', ' ', ' ',
    ' ', ' ', ' ', ' ', ' ', ' ', ' ',
    ' ', ' ', ' ', ' ', ' ', ' ', ' ',
    '　', '﻿']

/-- Drop matching characters from the end of a list (the
`while endIndex > 0 && p (str[endIndex-1])` loops of the source). -/
def dropEndWhile (p : Char → Bool) (l : List Char) : List Char :=
  (l.reverse.dropWhile p).reverse

/-- The optional second argument of `trim`/`trimStart`/`trimEnd`:
omitted, a string, or an array of strings (`string | string[]`). -/
inductive TrimArg where
  | none : TrimArg
  | str : List Char → TrimArg
  | arr : List (List Char) → TrimArg
deriving DecidableEq

/-- `trimEnd` from `src/index.ts`.  The string form throws unless the
string has length exactly one; the array form matches any element equal
to the single-character string at the boundary. -/
def trimEnd (s : List Char) : TrimArg → Except (List Char) (List Char)
  | TrimArg.none => Except.ok (dropEndWhile jsWhitespace s)
  | TrimArg.str t =>
    if t.length ≠ 1 then
      Except.error "The chars parameter should be a single character string.".data
    else Except.ok (dropEndWhile (fun c => [c] = t) s)
  | TrimArg.arr ts => Except.ok (dropEndWhile (fun c => ts.contains [c]) s)

/-- `trimStart` from `src/index.ts`.  Note: the source performs no
length check in the string case; a multi-character string never equals a
one-character slice, so trimming is then a no-op. -/
def trimStart (s : List Char) : TrimArg → Except (List Char) (List Char)
  | TrimArg.none => Except.ok (s.dropWhile jsWhitespace)
  | TrimArg.str t => Except.ok (s.dropWhile (fun c => [c] = t))
  | TrimArg.arr ts => Except.ok (s.dropWhile (fun c => ts.contains [c]))

/-- `trim` from `src/index.ts`: `trimStart(trimEnd(str, chars), chars)`;
with no argument it is the built-in `String.prototype.trim`. -/
def trim (s : List Char) : TrimArg → Except (List Char) (List Char)
  | TrimArg.none =>
    Except.ok ((s.dropWhile jsWhitespace).reverse.dropWhile jsWhitespace).reverse
  | arg => (trimEnd s arg).bind fun r => trimStart r arg

/-- `true` on `Except.error`, the model of a thrown exception. -/
def isError {ε α : Type} : Except ε α → Bool
  | Except.error _ => true
  | Except.ok _ => false

/-- The replacement text of `String(args[i])` in `sprintf`: the
stringified argument when present, the string `"undefined"` when the
index is past the end (`String(undefined)`).  Arguments are modelled
already stringified, `String` on a string being the identity. -/
def sprintfArg (args : List (List Char)) (i : Nat) : List Char :=
  args.getD i "undefined".data

/-- The scan of `format.replace(/%[sdv]/g, ...)`: at each position a
`%` followed by `s`, `d` or `v` is replaced by the next argument's
stringification; any other character is copied. -/
def sprintfGo (args : List (List Char)) : List Char → Nat → List Char
  | [], _ => []
  | '%' :: c :: rest, i =>
    if c = 's' ∨ c = 'd' ∨ c = 'v' then sprintfArg args i ++ sprintfGo args rest (i + 1)
    else '%' :: sprintfGo args (c :: rest) i
  | c :: rest, i => c :: sprintfGo args rest i

/-- `sprintf` from `src/index.ts`. -/
def sprintf (format : List Char) (args : List (List Char)) : List Char :=
  sprintfGo args format 0

/-- The values traversed by the structural recasing functions: scalars
(string/number/boolean/null/undefined, collapsed into one opaque
constructor carrying a tag), `Date` objects, arrays, and plain objects
whose own enumerable keys are listed in insertion order. -/
inductive SValue where
  | prim : String → SValue
  | date : Nat → SValue
  | arr : List SValue → SValue
  | obj : List (List Char × SValue) → SValue

instance : Inhabited SValue := ⟨SValue.prim ""⟩

/-- JavaScript property assignment `acc[k] = v` on an object modelled as
an insertion-ordered association list: an existing key keeps its
position and gets the new value, a new key is appended. -/
def setKey (m : List (List Char × SValue)) (k : List Char) (v : SValue) :
    List (List Char × SValue) :=
  if m.any fun p => p.1 = k then
    m.map fun p => if p.1 = k then (k, v) else p
  else m ++ [(k, v)]

/-- Property lookup `m[k]`. -/
def lookupKey (m : List (List Char × SValue)) (k : List Char) : Option SValue :=
  (m.find? fun p => p.1 = k).map fun p => p.2

/-- Sequential JavaScript assignments of a key/value list into a fresh
object: `list.reduce((acc, [k, v]) => { acc[k] = v; return acc; }, {})`. -/
def dedupAssoc (ps : List (List Char × SValue)) : List (List Char × SValue) :=
  ps.foldl (fun acc p => setKey acc p.1 p.2) []

/-- The ad-hoc key derivation inside `toSnakeCase` before lowercasing:
`key.replace(/([A-Z])/g, "_$1")` — an underscore inserted before every
ASCII uppercase letter. -/
def snakeKeyRaw : List Char → List Char
  | [] => []
  | c :: rest =>
    if c.isUpper then '_' :: c :: snakeKeyRaw rest else c :: snakeKeyRaw rest

/-- The full ad-hoc snake key of `toSnakeCase`/`convertKeysWithBoth`:
`key.replace(/([A-Z])/g, "_$1").toLowerCase()`. -/
def snakeKey (k : List Char) : List Char :=
  (snakeKeyRaw k).map Char.toLower

/-- The ad-hoc camel key of `convertKeysWithBoth`:
`key.replace(/_([a-z])/g, (_, letter) => letter.toUpperCase())`. -/
def camelKey : List Char → List Char
  | [] => []
  | '_' :: c :: rest =>
    if c.isLower then c.toUpper :: camelKey rest else '_' :: camelKey (c :: rest)
  | c :: rest => c :: camelKey rest

mutual

/-- `toSnakeCase` from `src/index.ts`: primitives and `Date` unchanged,
arrays mapped element-wise, objects rebuilt by assigning
`snakeKey`-renamed keys with recursively converted values in key order
(the source folds `setKey` directly; here the pairs are formed first and
then assigned in the same order, which performs the identical sequence
of assignments). -/
def toSnakeCase : SValue → SValue
  | SValue.prim s => SValue.prim s
  | SValue.date d => SValue.date d
  | SValue.arr xs => SValue.arr (toSnakeCaseList xs)
  | SValue.obj kvs => SValue.obj (dedupAssoc (toSnakeCaseObj kvs))

/-- Element-wise `toSnakeCase` on arrays. -/
def toSnakeCaseList : List SValue → List SValue
  | [] => []
  | x :: xs => toSnakeCase x :: toSnakeCaseList xs

/-- The key/value pairs `(snakeKey k, toSnakeCase v)` in key order. -/
def toSnakeCaseObj : List (List Char × SValue) → List (List Char × SValue)
  | [] => []
  | (k, v) :: kvs => (snakeKey k, toSnakeCase v) :: toSnakeCaseObj kvs

end

/-- The test `value !== null && typeof value === "object" &&
!(value instanceof Date)` of `convertKeysWithBoth`. -/
def isComposite : SValue → Bool
  | SValue.arr _ => true
  | SValue.obj _ => true
  | _ => false

mutual

/-- `convertKeysWithBoth` from `src/index.ts`.  A top-level `Date` is
neither an array nor excluded by the object branch, so it is reduced
over its (empty) key set and becomes an empty object. -/
def convertKeysWithBoth : SValue → SValue
  | SValue.prim s => SValue.prim s
  | SValue.date _ => SValue.obj []
  | SValue.arr xs => SValue.arr (convertKeysWithBothList xs)
  | SValue.obj kvs => SValue.obj (convertKeysWithBothObj kvs [])

/-- Element-wise `convertKeysWithBoth` on arrays. -/
def convertKeysWithBothList : List SValue → List SValue
  | [] => []
  | x :: xs => convertKeysWithBoth x :: convertKeysWithBothList xs

/-- The accumulator fold of `convertKeysWithBoth` over an object's keys:
for each key, assign the raw value under the original, snake and camel
keys; then, when the value is a non-`Date` object or array, re-assign
the converted value under the original and camel keys only (the source
does not re-assign the snake key). -/
def convertKeysWithBothObj :
    List (List Char × SValue) → List (List Char × SValue) →
      List (List Char × SValue)
  | [], acc => acc
  | (k, v) :: kvs, acc =>
    convertKeysWithBothObj kvs
      (if isComposite v then
        setKey
          (setKey (setKey (setKey (setKey acc k v) (snakeKey k) v) (camelKey k) v)
            k (convertKeysWithBoth v))
          (camelKey k) (convertKeysWithBoth v)
      else setKey (setKey (setKey acc k v) (snakeKey k) v) (camelKey k) v)

end

/-- A character that can start (and occur in) a match of
`CASE_SPLIT_PATTERN`: uppercase, lowercase, ASCII digit, emoji class, or
letter.  All other characters are separators. -/
def matchableChar (T : CharTable) (c : Char) : Bool :=
  T.isUpper c || T.isLower c || isDigitChar c ||
    T.isEmojiPresentation c || T.isExtendedPictographic c || T.isLetter c

/-- No two adjacent ASCII uppercase letters. -/
def noAdjacentUppers : List Char → Bool
  | [] => true
  | [_] => true
  | a :: b :: rest => !(a.isUpper && b.isUpper) && noAdjacentUppers (b :: rest)

/-- An ASCII camelCase-shaped identifier: nonempty, ASCII letters only,
starting with a lowercase letter, with no two adjacent uppercase
letters. -/
def isCamelShapedKey : List Char → Bool
  | [] => false
  | c :: rest => c.isLower && (c :: rest).all Char.isAlpha &&
      noAdjacentUppers (c :: rest)

/-- Whether a string's first character is an ASCII lowercase letter. -/
def headIsLower : List Char → Bool
  | [] => false
  | c :: _ => c.isLower

/-- Whether a string's first character is an ASCII uppercase letter. -/
def headIsUpper : List Char → Bool
  | [] => false
  | c :: _ => c.isUpper

/-- The character substitution replacing every underscore by a
hyphen. -/
def underscoreToHyphen (c : Char) : Char :=
  if c = '_' then '-' else c

/-! ### Structure of a single pattern match -/

theorem takeWhile_nil_dropWhile {p : Char → Bool} {l : List Char}
    (h : l.takeWhile p = []) : l.dropWhile p = l := by
  cases l with
  | nil => rfl
  | cons a l =>
    rw [List.takeWhile_cons] at h
    rw [List.dropWhile_cons]
    split at h
    · exact absurd h (by simp)
    · rw [if_neg (by assumption)]

theorem alt1_some {T : CharTable} {l tok rest : List Char}
    (h : alt1 T l = some (tok, rest)) : tok ≠ [] ∧ tok ++ rest = l := by
  cases l with
  | nil => exact absurd h (by simp [alt1])
  | cons c r =>
    simp only [alt1] at h
    split at h
    · rw [Option.some.injEq, Prod.mk.injEq] at h
      obtain ⟨h1, h2⟩ := h
      refine ⟨by rw [← h1]; simp, ?_⟩
      rw [← h1, ← h2, List.cons_append, List.takeWhile_append_dropWhile]
    · split at h
      · rename_i hlow
        rw [Option.some.injEq, Prod.mk.injEq] at h
        obtain ⟨h1, h2⟩ := h
        refine ⟨?_, by rw [← h1, ← h2]; exact List.takeWhile_append_dropWhile ..⟩
        rw [← h1, List.takeWhile_cons, if_pos hlow]
        simp
      · exact Option.noConfusion h

theorem alt2_some {l tok rest : List Char}
    (h : alt2 l = some (tok, rest)) : tok ≠ [] ∧ tok ++ rest = l := by
  unfold alt2 at h
  split at h
  · exact Option.noConfusion h
  · rename_i hne
    rw [Option.some.injEq, Prod.mk.injEq] at h
    obtain ⟨h1, h2⟩ := h
    refine ⟨?_, by rw [← h1, ← h2]; exact List.takeWhile_append_dropWhile ..⟩
    rw [← h1]
    intro hc
    rw [hc] at hne
    exact hne rfl

theorem alt3_some {T : CharTable} {l tok rest : List Char}
    (h : alt3 T l = some (tok, rest)) : tok ≠ [] ∧ tok ++ rest = l := by
  simp only [alt3] at h
  split at h
  · exact Option.noConfusion h
  · rename_i hrun
    split at h
    · rename_i hnil
      rw [Option.some.injEq, Prod.mk.injEq] at h
      obtain ⟨h1, h2⟩ := h
      constructor
      · rw [← h1]; intro hc; rw [hc] at hrun; exact hrun rfl
      · have h3 := List.takeWhile_append_dropWhile (p := T.isUpper) (l := l)
        rw [hnil, List.append_nil] at h3
        rw [← h1, ← h2, List.append_nil, h3]
    · rename_i d rest2 hd
      split at h
      · split at h
        · rename_i hlow hlen
          rw [Option.some.injEq, Prod.mk.injEq] at h
          obtain ⟨h1, h2⟩ := h
          constructor
          · rw [← h1]
            intro hc
            have hlc := congrArg List.length hc
            rw [List.length_take] at hlc
            simp only [List.length_nil] at hlc
            omega
          · rw [← h1, ← h2, ← List.append_assoc, List.take_append_drop]
            exact List.takeWhile_append_dropWhile ..
        · exact Option.noConfusion h
      · rw [Option.some.injEq, Prod.mk.injEq] at h
        obtain ⟨h1, h2⟩ := h
        constructor
        · rw [← h1]; intro hc; rw [hc] at hrun; exact hrun rfl
        · rw [← h1, ← h2]; exact List.takeWhile_append_dropWhile ..

theorem alt4_some {T : CharTable} {l tok rest : List Char}
    (h : alt4 T l = some (tok, rest)) : tok ≠ [] ∧ tok ++ rest = l := by
  cases l with
  | nil => exact absurd h (by simp [alt4])
  | cons c r =>
    simp only [alt4] at h
    split at h
    · rw [Option.some.injEq, Prod.mk.injEq] at h
      obtain ⟨h1, h2⟩ := h
      rw [← h1, ← h2]
      exact ⟨by simp, rfl⟩
    · exact Option.noConfusion h

theorem alt5_some {T : CharTable} {l tok rest : List Char}
    (h : alt5 T l = some (tok, rest)) : tok ≠ [] ∧ tok ++ rest = l := by
  cases l with
  | nil => exact absurd h (by simp [alt5])
  | cons c r =>
    simp only [alt5] at h
    split at h
    · rw [Option.some.injEq, Prod.mk.injEq] at h
      obtain ⟨h1, h2⟩ := h
      rw [← h1, ← h2]
      exact ⟨by simp, rfl⟩
    · exact Option.noConfusion h

theorem alt6_some {T : CharTable} {l tok rest : List Char}
    (h : alt6 T l = some (tok, rest)) : tok ≠ [] ∧ tok ++ rest = l := by
  unfold alt6 at h
  split at h
  · exact Option.noConfusion h
  · rename_i hne
    rw [Option.some.injEq, Prod.mk.injEq] at h
    obtain ⟨h1, h2⟩ := h
    refine ⟨?_, by rw [← h1, ← h2]; exact List.takeWhile_append_dropWhile ..⟩
    rw [← h1]
    intro hc
    rw [hc] at hne
    exact hne rfl

theorem matchAt_alt_cases {T : CharTable} {l : List Char}
    {p : List Char × List Char} (h : matchAt T l = some p) :
    alt1 T l = some p ∨ alt2 l = some p ∨ alt3 T l = some p ∨
      alt4 T l = some p ∨ alt5 T l = some p ∨ alt6 T l = some p := by
  cases h1 : alt1 T l with
  | some q => left; rw [← h]; simp [matchAt, h1, Option.orElse]
  | none =>
  cases h2 : alt2 l with
  | some q => right; left; rw [← h]; simp [matchAt, h1, h2, Option.orElse]
  | none =>
  cases h3 : alt3 T l with
  | some q => right; right; left; rw [← h]; simp [matchAt, h1, h2, h3, Option.orElse]
  | none =>
  cases h4 : alt4 T l with
  | some q =>
    right; right; right; left
    rw [← h]; simp [matchAt, h1, h2, h3, h4, Option.orElse]
  | none =>
  cases h5 : alt5 T l with
  | some q =>
    right; right; right; right; left
    rw [← h]; simp [matchAt, h1, h2, h3, h4, h5, Option.orElse]
  | none =>
  right; right; right; right; right
  rw [← h]; simp [matchAt, h1, h2, h3, h4, h5, Option.orElse]

theorem matchAt_some {T : CharTable} {l tok rest : List Char}
    (h : matchAt T l = some (tok, rest)) : tok ≠ [] ∧ tok ++ rest = l := by
  rcases matchAt_alt_cases h with h | h | h | h | h | h
  · exact alt1_some h
  · exact alt2_some h
  · exact alt3_some h
  · exact alt4_some h
  · exact alt5_some h
  · exact alt6_some h

theorem matchAt_nil (T : CharTable) : matchAt T [] = none := by
  simp [matchAt, alt1, alt2, alt3, alt4, alt5, alt6, Option.orElse]

theorem matchAt_eq_none_of_alts {T : CharTable} {l : List Char}
    (h1 : alt1 T l = none) (h2 : alt2 l = none) (h3 : alt3 T l = none)
    (h4 : alt4 T l = none) (h5 : alt5 T l = none) (h6 : alt6 T l = none) :
    matchAt T l = none := by
  simp [matchAt, h1, h2, h3, h4, h5, h6, Option.orElse]

theorem matchAt_none_alts {T : CharTable} {l : List Char}
    (h : matchAt T l = none) :
    alt1 T l = none ∧ alt2 l = none ∧ alt3 T l = none ∧
      alt4 T l = none ∧ alt5 T l = none ∧ alt6 T l = none := by
  cases h1 : alt1 T l with
  | some q => rw [show matchAt T l = some q by simp [matchAt, h1, Option.orElse]] at h; exact Option.noConfusion h
  | none =>
  cases h2 : alt2 l with
  | some q => rw [show matchAt T l = some q by simp [matchAt, h1, h2, Option.orElse]] at h; exact Option.noConfusion h
  | none =>
  cases h3 : alt3 T l with
  | some q => rw [show matchAt T l = some q by simp [matchAt, h1, h2, h3, Option.orElse]] at h; exact Option.noConfusion h
  | none =>
  cases h4 : alt4 T l with
  | some q => rw [show matchAt T l = some q by simp [matchAt, h1, h2, h3, h4, Option.orElse]] at h; exact Option.noConfusion h
  | none =>
  cases h5 : alt5 T l with
  | some q => rw [show matchAt T l = some q by simp [matchAt, h1, h2, h3, h4, h5, Option.orElse]] at h; exact Option.noConfusion h
  | none =>
  cases h6 : alt6 T l with
  | some q => rw [show matchAt T l = some q by simp [matchAt, h1, h2, h3, h4, h5, h6, Option.orElse]] at h; exact Option.noConfusion h
  | none => exact ⟨rfl, rfl, rfl, rfl, rfl, rfl⟩

theorem matchAt_none_iff {T : CharTable} {c : Char} {r : List Char} :
    matchAt T (c :: r) = none ↔ matchableChar T c = false := by
  constructor
  · intro h
    obtain ⟨h1, h2, h3, h4, h5, h6⟩ := matchAt_none_alts h
    simp only [alt1] at h1
    have hsplit : ¬(T.isUpper c && !(r.takeWhile T.isLower).isEmpty) = true ∧
        T.isLower c = false := by
      split at h1
      · exact Option.noConfusion h1
      · split at h1
        · exact Option.noConfusion h1
        · rename_i hc1 hc2
          exact ⟨hc1, Bool.of_not_eq_true hc2⟩
    obtain ⟨hc1, hlow⟩ := hsplit
    have hup : T.isUpper c = false := by
      cases hu : T.isUpper c with
      | false => rfl
      | true =>
        have hemp : (r.takeWhile T.isLower).isEmpty = true := by
          cases he : (r.takeWhile T.isLower).isEmpty with
          | true => rfl
          | false => rw [hu, he] at hc1; exact absurd rfl hc1
        have htw : r.takeWhile T.isLower = [] := by
          cases hr : r.takeWhile T.isLower with
          | nil => rfl
          | cons a s => rw [hr] at hemp; exact Bool.noConfusion hemp
        simp only [alt3] at h3
        split at h3
        · rename_i hrunemp
          rw [List.takeWhile_cons, if_pos hu] at hrunemp
          exact Bool.noConfusion hrunemp
        · rename_i hrunemp
          split at h3
          · exact Option.noConfusion h3
          · rename_i d rest2 hd
            split at h3
            · rename_i hlowd
              split at h3
              · exact Option.noConfusion h3
              · rename_i hlen
                have hrun : (c :: r).takeWhile T.isUpper =
                    c :: r.takeWhile T.isUpper := by
                  rw [List.takeWhile_cons, if_pos hu]
                have htwu : r.takeWhile T.isUpper = [] := by
                  cases hr : r.takeWhile T.isUpper with
                  | nil => rfl
                  | cons a s =>
                    rw [hrun, hr] at hlen
                    simp at hlen
                have hdw : (c :: r).dropWhile T.isUpper = r := by
                  rw [List.dropWhile_cons, if_pos hu]
                  exact takeWhile_nil_dropWhile htwu
                rw [hdw] at hd
                rw [hd, List.takeWhile_cons, if_pos hlowd] at htw
                exact List.noConfusion htw
            · exact Option.noConfusion h3
    have hdig : isDigitChar c = false := by
      cases hdc : isDigitChar c with
      | false => rfl
      | true =>
        simp only [alt2] at h2
        rw [List.takeWhile_cons, if_pos hdc] at h2
        simp at h2
    have hep : T.isEmojiPresentation c = false := by
      cases he : T.isEmojiPresentation c with
      | false => rfl
      | true => simp only [alt4] at h4; rw [if_pos he] at h4; exact Option.noConfusion h4
    have hxp : T.isExtendedPictographic c = false := by
      cases he : T.isExtendedPictographic c with
      | false => rfl
      | true => simp only [alt5] at h5; rw [if_pos he] at h5; exact Option.noConfusion h5
    have hlet : T.isLetter c = false := by
      cases he : T.isLetter c with
      | false => rfl
      | true =>
        simp only [alt6] at h6
        rw [List.takeWhile_cons, if_pos he] at h6
        simp at h6
    simp [matchableChar, hup, hlow, hdig, hep, hxp, hlet]
  · intro h
    simp only [matchableChar, Bool.or_eq_false_iff] at h
    obtain ⟨⟨⟨⟨⟨hup, hlow⟩, hdig⟩, hep⟩, hxp⟩, hlet⟩ := h
    apply matchAt_eq_none_of_alts
    · simp [alt1, hup, hlow]
    · simp [alt2, List.takeWhile_cons, hdig]
    · simp [alt3, List.takeWhile_cons, hup]
    · simp [alt4, hep]
    · simp [alt5, hxp]
    · simp [alt6, List.takeWhile_cons, hlet]

theorem matchAt_isSome_of_matchable {T : CharTable} {c : Char} (r : List Char)
    (h : matchableChar T c = true) :
    ∃ tok rest, matchAt T (c :: r) = some (tok, rest) := by
  cases hm : matchAt T (c :: r) with
  | none => rw [matchAt_none_iff.mp hm] at h; exact Bool.noConfusion h
  | some p => exact ⟨p.1, p.2, rfl⟩

theorem scanAux_nil (T : CharTable) (f : Nat) : scanAux T f [] = [] := by
  cases f with
  | zero => rfl
  | succ n => rfl

theorem matchAt_rest_lt {T : CharTable} {l tok rest : List Char}
    (h : matchAt T l = some (tok, rest)) : rest.length < l.length := by
  obtain ⟨hne, hcat⟩ := matchAt_some h
  have := congrArg List.length hcat
  rw [List.length_append] at this
  cases tok with
  | nil => exact absurd rfl hne
  | cons a s => simp at this; omega

theorem scanAux_fuel (T : CharTable) :
    ∀ f1 f2 : Nat, ∀ l : List Char, l.length ≤ f1 → l.length ≤ f2 →
      scanAux T f1 l = scanAux T f2 l := by
  intro f1
  induction f1 with
  | zero =>
    intro f2 l h1 h2
    have h0 : l = [] := List.eq_nil_of_length_eq_zero (Nat.le_zero.mp h1)
    rw [h0, scanAux_nil, scanAux_nil]
  | succ n ih =>
    intro f2 l h1 h2
    cases l with
    | nil => rw [scanAux_nil, scanAux_nil]
    | cons c r =>
      cases f2 with
      | zero => simp at h2
      | succ m =>
        cases hm : matchAt T (c :: r) with
        | some p =>
          obtain ⟨tok, rest⟩ := p
          have hlt := matchAt_rest_lt hm
          simp only [List.length_cons] at h1 h2 hlt
          have e1 : scanAux T (n + 1) (c :: r) = tok :: scanAux T n rest := by
            simp only [scanAux, hm]
          have e2 : scanAux T (m + 1) (c :: r) = tok :: scanAux T m rest := by
            simp only [scanAux, hm]
          rw [e1, e2, ih m rest (by omega) (by omega)]
        | none =>
          simp only [List.length_cons] at h1 h2
          have e1 : scanAux T (n + 1) (c :: r) = scanAux T n r := by
            simp only [scanAux, hm]
          have e2 : scanAux T (m + 1) (c :: r) = scanAux T m r := by
            simp only [scanAux, hm]
          rw [e1, e2, ih m r (by omega) (by omega)]

theorem words_cons_match {T : CharTable} {l tok rest : List Char}
    (h : matchAt T l = some (tok, rest)) :
    words T l = tok :: words T rest := by
  cases l with
  | nil => rw [matchAt_nil] at h; exact Option.noConfusion h
  | cons c r =>
    have hlt := matchAt_rest_lt h
    simp only [List.length_cons] at hlt
    have e1 : words T (c :: r) = tok :: scanAux T r.length rest := by
      simp only [words, List.length_cons, scanAux, h]
    rw [e1, scanAux_fuel T r.length rest.length rest (by omega) (Nat.le_refl _)]
    rfl

theorem words_cons_skip {T : CharTable} {c : Char} {r : List Char}
    (h : matchAt T (c :: r) = none) : words T (c :: r) = words T r := by
  simp only [words, List.length_cons, scanAux, h]

theorem words_eq_nil_iff {T : CharTable} {l : List Char} :
    words T l = [] ↔ ∀ c ∈ l, matchableChar T c = false := by
  induction l with
  | nil => simp [words, scanAux]
  | cons c r ih =>
    cases hm : matchableChar T c with
    | false =>
      rw [words_cons_skip (matchAt_none_iff.mpr hm), ih]
      constructor
      · intro h d hd
        rcases List.mem_cons.mp hd with rfl | hd
        · exact hm
        · exact h d hd
      · intro h d hd
        exact h d (List.mem_cons_of_mem c hd)
    | true =>
      obtain ⟨tok, rest, hsome⟩ := matchAt_isSome_of_matchable r hm
      rw [words_cons_match hsome]
      constructor
      · intro h; exact List.noConfusion h
      · intro h
        rw [h c (List.mem_cons_self c r)] at hm
        exact Bool.noConfusion hm

end Strkit

namespace Strkit

theorem words_test1 :
    words stdTable "numbers123andText".data =
      ["numbers".data, "123".data, "and".data, "Text".data] := by decide

theorem words_test2 :
    words stdTable "HTTPRequest".data = ["HTTP".data, "Request".data] := by decide

theorem words_test3 : words stdTable "".data = [] := by decide

theorem words_test4 :
    words stdTable "snake_case_example".data =
      ["snake".data, "case".data, "example".data] := by decide

theorem snake_test1 :
    snakeCase stdTable "Hello world".data = "hello_world".data := by decide

theorem camel_test1 :
    camelCase stdTable "hello_world-test".data = "helloWorldTest".data := by decide

/-! ### ASCII character facts -/

theorem char_toNat_ofNat_valid {n : Nat} (h : n < 55296) :
    (Char.ofNat n).toNat = n := by
  unfold Char.ofNat
  rw [dif_pos (Or.inl h)]
  rfl

theorem isUpper_iff (c : Char) :
    c.isUpper = true ↔ 65 ≤ c.toNat ∧ c.toNat ≤ 90 := by
  simp only [Char.isUpper, Bool.and_eq_true, decide_eq_true_eq]
  exact Iff.rfl

theorem isLower_iff (c : Char) :
    c.isLower = true ↔ 97 ≤ c.toNat ∧ c.toNat ≤ 122 := by
  simp only [Char.isLower, Bool.and_eq_true, decide_eq_true_eq]
  exact Iff.rfl

theorem isDigitChar_iff (c : Char) :
    isDigitChar c = true ↔ 48 ≤ c.toNat ∧ c.toNat ≤ 57 := by
  simp only [isDigitChar, Bool.and_eq_true, decide_eq_true_eq]
  exact Iff.rfl

theorem isUpper_of_not (c : Char) (h : ¬(65 ≤ c.toNat ∧ c.toNat ≤ 90)) :
    c.isUpper = false := by
  cases hu : c.isUpper with
  | false => rfl
  | true => exact absurd ((isUpper_iff c).mp hu) h

theorem isLower_of_not (c : Char) (h : ¬(97 ≤ c.toNat ∧ c.toNat ≤ 122)) :
    c.isLower = false := by
  cases hu : c.isLower with
  | false => rfl
  | true => exact absurd ((isLower_iff c).mp hu) h

theorem isUpper_of_isLower {c : Char} (h : c.isLower = true) :
    c.isUpper = false := by
  obtain ⟨h1, h2⟩ := (isLower_iff c).mp h
  exact isUpper_of_not c (by omega)

theorem isLower_of_isUpper {c : Char} (h : c.isUpper = true) :
    c.isLower = false := by
  obtain ⟨h1, h2⟩ := (isUpper_iff c).mp h
  exact isLower_of_not c (by omega)

theorem toLower_toNat_of_upper {c : Char} (h : c.isUpper = true) :
    (c.toLower).toNat = c.toNat + 32 := by
  obtain ⟨h1, h2⟩ := (isUpper_iff c).mp h
  simp only [Char.toLower]
  rw [if_pos ⟨h1, h2⟩]
  exact char_toNat_ofNat_valid (by omega)

theorem toLower_of_not_upper {c : Char} (h : c.isUpper = false) :
    c.toLower = c := by
  simp only [Char.toLower]
  rw [if_neg]
  intro hc
  have h2 := (isUpper_iff c).mpr hc
  rw [h2] at h
  exact Bool.noConfusion h

theorem isLower_toLower {c : Char} (h : c.isUpper = true) :
    (c.toLower).isLower = true := by
  obtain ⟨h1, h2⟩ := (isUpper_iff c).mp h
  have := toLower_toNat_of_upper h
  exact (isLower_iff _).mpr (by omega)

theorem toLower_of_isLower {c : Char} (h : c.isLower = true) :
    c.toLower = c :=
  toLower_of_not_upper (isUpper_of_isLower h)

theorem toUpper_toNat_of_lower {c : Char} (h : c.isLower = true) :
    (c.toUpper).toNat = c.toNat - 32 := by
  obtain ⟨h1, h2⟩ := (isLower_iff c).mp h
  simp only [Char.toUpper]
  rw [if_pos ⟨h1, h2⟩]
  exact char_toNat_ofNat_valid (by omega)

theorem toUpper_of_not_lower {c : Char} (h : c.isLower = false) :
    c.toUpper = c := by
  simp only [Char.toUpper]
  rw [if_neg]
  intro hc
  have h2 := (isLower_iff c).mpr hc
  rw [h2] at h
  exact Bool.noConfusion h

theorem isUpper_toUpper {c : Char} (h : c.isLower = true) :
    (c.toUpper).isUpper = true := by
  obtain ⟨h1, h2⟩ := (isLower_iff c).mp h
  have := toUpper_toNat_of_lower h
  exact (isUpper_iff _).mpr (by omega)

theorem isLower_toLower_of_alpha {c : Char} (h : c.isAlpha = true) :
    (c.toLower).isLower = true := by
  simp only [Char.isAlpha, Bool.or_eq_true] at h
  rcases h with h | h
  · exact isLower_toLower h
  · rw [toLower_of_isLower h]; exact h

theorem isUpper_of_isDigit {c : Char} (h : isDigitChar c = true) :
    c.isUpper = false := by
  obtain ⟨h1, h2⟩ := (isDigitChar_iff c).mp h
  exact isUpper_of_not c (by omega)

theorem isLower_of_isDigit {c : Char} (h : isDigitChar c = true) :
    c.isLower = false := by
  obtain ⟨h1, h2⟩ := (isDigitChar_iff c).mp h
  exact isLower_of_not c (by omega)

theorem toLower_of_isDigit {c : Char} (h : isDigitChar c = true) :
    c.toLower = c :=
  toLower_of_not_upper (isUpper_of_isDigit h)

theorem isDigit_toLower {c : Char} (h : isDigitChar c = true) :
    isDigitChar c.toLower = true := by
  rw [toLower_of_isDigit h]; exact h

theorem toNat_ne_imp_ne {c d : Char} (h : c.toNat ≠ d.toNat) : c ≠ d := by
  intro hc; exact h (by rw [hc])

theorem toLower_notSpecial {c : Char} {d : Char}
    (hd : d.toNat = 95 ∨ d.toNat = 45)
    (h : matchableChar stdTable c = true) : c.toLower ≠ d := by
  simp only [matchableChar, Bool.or_eq_true, stdTable] at h
  by_cases hu : c.isUpper = true
  · have h3 := toLower_toNat_of_upper hu
    obtain ⟨h1, h2⟩ := (isUpper_iff c).mp hu
    exact toNat_ne_imp_ne (by omega)
  · rw [toLower_of_not_upper (Bool.of_not_eq_true hu)]
    rcases h with ((((h | h) | h) | h) | h) | h
    · exact absurd h hu
    · obtain ⟨h1, h2⟩ := (isLower_iff c).mp h
      exact toNat_ne_imp_ne (by omega)
    · obtain ⟨h1, h2⟩ := (isDigitChar_iff c).mp h
      exact toNat_ne_imp_ne (by omega)
    · simp [emojiPresentationChars] at h
      have hf : ('🔥').toNat = 128293 := by decide
      have hs : ('😅').toNat = 128517 := by decide
      rcases h with rfl | rfl
      · exact toNat_ne_imp_ne (by omega)
      · exact toNat_ne_imp_ne (by omega)
    · simp [extendedPictographicChars] at h
      have hf : ('🔥').toNat = 128293 := by decide
      have hs : ('😅').toNat = 128517 := by decide
      rcases h with rfl | rfl
      · exact toNat_ne_imp_ne (by omega)
      · exact toNat_ne_imp_ne (by omega)
    · simp only [Char.isAlpha, Bool.or_eq_true] at h
      rcases h with h | h
      · exact absurd h hu
      · obtain ⟨h1, h2⟩ := (isLower_iff c).mp h
        exact toNat_ne_imp_ne (by omega)

theorem toLower_ne_underscore {c : Char}
    (h : matchableChar stdTable c = true) : c.toLower ≠ '_' :=
  toLower_notSpecial (by decide) h

theorem toLower_ne_hyphen {c : Char}
    (h : matchableChar stdTable c = true) : c.toLower ≠ '-' :=
  toLower_notSpecial (by decide) h


/-! ### Claim theorems -/

/-- C1: `segment("numbers123andText")` returns exactly the token
sequence `["numbers", "123", "and", "Text"]` — a digit run breaks a
lowercase run even without an explicit separator. -/
theorem c1_segment_numbers123andText :
    words stdTable "numbers123andText".data =
      ["numbers".data, "123".data, "and".data, "Text".data] := by decide

/-- C2: the Segmenter accepts every string, including the empty string,
and never fails (it is a total function); for any platform table whose
uppercase and lowercase classes are contained in its letter class (as in
Unicode), the result is the empty sequence iff the input contains no
letter, no decimal digit, and no emoji-class code point. -/
theorem c2_segment_total_empty_iff (T : CharTable)
    (hU : ∀ c, T.isUpper c = true → T.isLetter c = true)
    (hL : ∀ c, T.isLower c = true → T.isLetter c = true)
    (l : List Char) :
    words T l = [] ↔ ∀ c ∈ l, T.isLetter c = false ∧ isDigitChar c = false ∧
      T.isEmojiPresentation c = false ∧ T.isExtendedPictographic c = false := by
  rw [words_eq_nil_iff]
  constructor
  · intro h c hc
    have h2 := h c hc
    simp only [matchableChar, Bool.or_eq_false_iff] at h2
    obtain ⟨⟨⟨⟨⟨h1, h2⟩, h3⟩, h4⟩, h5⟩, h6⟩ := h2
    exact ⟨h6, h3, h4, h5⟩
  · intro h c hc
    obtain ⟨hlet, hdig, hep, hxp⟩ := h c hc
    have hup : T.isUpper c = false := by
      cases hu : T.isUpper c with
      | false => rfl
      | true => rw [hU c hu] at hlet; exact Bool.noConfusion hlet
    have hlow : T.isLower c = false := by
      cases hu : T.isLower c with
      | false => rfl
      | true => rw [hL c hu] at hlet; exact Bool.noConfusion hlet
    simp [matchableChar, hup, hlow, hdig, hep, hxp, hlet]

/-- Witness for C2 at the standard table on a separator-only string and
with the Unicode class-inclusion hypotheses discharged. -/
theorem c2_segment_total_empty_iff_witness :
    words stdTable " _-!".data = [] ↔ ∀ c ∈ " _-!".data,
      stdTable.isLetter c = false ∧ isDigitChar c = false ∧
        stdTable.isEmojiPresentation c = false ∧
        stdTable.isExtendedPictographic c = false :=
  c2_segment_total_empty_iff stdTable
    (fun c hu => by
      have hu2 : c.isUpper = true := hu
      simp [stdTable, Char.isAlpha, hu2])
    (fun c hl => by
      have hl2 : c.isLower = true := hl
      simp [stdTable, Char.isAlpha, hl2])
    " _-!".data


/-- C4: the claim (and the function's own documentation) says specifiers
beyond the argument count are left in the output as literal text; the
code replaces them with the stringification of a missing argument, the
text `undefined`.  Evaluation at the failing input `sprintf("%s and %s", "a")`:
the output is `"a and undefined"`, not `"a and %s"`. -/
theorem c4_sprintf_missing_arg_becomes_undefined :
    sprintf "%s and %s".data ["a".data] = "a and undefined".data ∧
      sprintf "%s and %s".data ["a".data] ≠ "a and %s".data ∧
      sprintf "Hello, %s!".data ["World".data] = "Hello, World!".data ∧
      sprintf "100% sure %d".data ["5".data] = "100% sure 5".data := by decide

/-- C5 counterexample: the claim says `trimStart` signals an
input-validation failure exactly when the trim set is a string of length
greater than one; on the two-character set `"ab"` the code performs no
length check and returns the input unchanged, and `trimEnd` also throws
on the empty string (length 0, not greater than 1). -/
theorem c5_counterexample :
    1 < "ab".data.length ∧
      trimStart "aaa".data (TrimArg.str "ab".data) = Except.ok "aaa".data ∧
      ¬ 1 < (List.length ([] : List Char)) ∧
      isError (trimEnd "x".data (TrimArg.str [])) = true :=
  ⟨by decide, rfl, by decide, rfl⟩

/-- C5 (amended): `trimEnd` and `trim` signal an input-validation
failure exactly when the trim set is given as a string whose length is
not 1 (so also for the empty string); `trimStart` never fails — a
multi-character string trim set makes it a no-op; list arguments and the
no-argument form never fail. -/
theorem c5_trim_error_characterization (s : List Char) (arg : TrimArg) :
    (isError (trimEnd s arg) = true ↔ ∃ t, arg = TrimArg.str t ∧ t.length ≠ 1)
    ∧ isError (trimStart s arg) = false
    ∧ (isError (trim s arg) = true ↔ ∃ t, arg = TrimArg.str t ∧ t.length ≠ 1) := by
  cases arg with
  | none => simp [trimEnd, trimStart, trim, isError]
  | str t =>
    by_cases h : t.length = 1
    · simp [trimEnd, trimStart, trim, isError, h, Except.bind]
    · simp [trimEnd, trimStart, trim, isError, h, Except.bind]
  | arr ts => simp [trimEnd, trimStart, trim, isError, Except.bind]

/-- C9 counterexample: with the empty fill string, `pad` returns the
input unchanged (JavaScript `padStart`/`padEnd` are no-ops for an empty
pad string), so the result length is not `max(L, length(T))`. -/
theorem c9_counterexample :
    (pad "a".data 5 []).length = 1 ∧ (1 : Nat) ≠ max (Int.toNat 5) "a".data.length := by
  decide

theorem repeatTo_length {fill : List Char} (h : fill ≠ []) (n : Nat) :
    (repeatTo n fill).length = n := by
  have hpos : 1 ≤ fill.length := List.length_pos.mpr h
  simp only [repeatTo, List.length_take, List.length_flatten, List.map_replicate,
    List.sum_replicate, smul_eq_mul]
  have : n ≤ n * fill.length := Nat.le_mul_of_pos_right n (by omega)
  omega

/-- C9 (amended): for every string, integral target length, and
**non-empty** fill string, the length of `pad` is exactly
`max(L, length(T))`; the result is `floor(totalPadding/2)` fill
characters prepended and the remainder appended, and when
`length(T) ≥ L` the input is returned unchanged.  (With the empty fill
string `pad` returns the input unchanged instead.) -/
theorem c9_pad_characterization (s : List Char) (L : Int) (fill : List Char)
    (h : fill ≠ []) :
    (pad s L fill).length = max L.toNat s.length
    ∧ pad s L fill =
        repeatTo ((L.toNat - s.length) / 2) fill ++ s ++
          repeatTo ((L.toNat - s.length) - (L.toNat - s.length) / 2) fill
    ∧ ((s.length : Int) ≥ L → pad s L fill = s) := by
  have h2 : (0 : Int) ≤ 2 := by norm_num
  by_cases hL : L ≤ (s.length : Int)
  · have htot : L.toNat - s.length = 0 := by omega
    have htgt : Int.fdiv (L - (s.length : Int)) 2 + (s.length : Int) ≤
        (s.length : Int) := by
      rw [Int.fdiv_eq_ediv _ h2]
      omega
    have hps : padStartJS s (Int.fdiv (L - (s.length : Int)) 2 + (s.length : Int))
        fill = s := by
      unfold padStartJS
      rw [if_pos (Or.inr htgt)]
    have hpe : padEndJS s L fill = s := by
      unfold padEndJS
      rw [if_pos (Or.inr hL)]
    have hres : pad s L fill = s := by
      unfold pad
      rw [hps, hpe]
    refine ⟨by rw [hres]; omega, ?_, fun _ => hres⟩
    rw [hres, htot]
    simp [repeatTo]
  · push_neg at hL
    have hfd : Int.fdiv (L - (s.length : Int)) 2 =
        (((L.toNat - s.length) / 2 : Nat) : Int) := by
      rw [Int.fdiv_eq_ediv _ h2]
      omega
    set n := s.length with hn
    set total := L.toNat - n with htotal
    have htpos : 1 ≤ total := by omega
    have hone : pad s L fill = padEndJS (padStartJS s
        ((((total / 2 : Nat) : Int)) + (n : Int)) fill) L fill := by
      unfold pad
      rw [hfd]
    by_cases hhalf : total / 2 = 0
    · have hps : padStartJS s ((((total / 2 : Nat) : Int)) + (n : Int)) fill
          = s := by
        unfold padStartJS
        rw [if_pos (Or.inr (by omega))]
      have hcond : ¬(fill = [] ∨ L ≤ ((s.length : Nat) : Int)) := by
        push_neg
        exact ⟨h, by omega⟩
      have hpe : padEndJS s L fill = s ++ repeatTo (L.toNat - n) fill := by
        unfold padEndJS
        rw [if_neg hcond]
      have hres : pad s L fill = s ++ repeatTo total fill := by
        rw [hone, hps, hpe]
      refine ⟨?_, ?_, fun hc => absurd hc (by omega)⟩
      · rw [hres]
        simp only [List.length_append, repeatTo_length h]
        omega
      · rw [hres, hhalf, Nat.sub_zero]
        simp [repeatTo]
    · have harg : ((((total / 2 : Nat) : Int)) + (n : Int)).toNat - n
          = total / 2 := by omega
      have hcond : ¬(fill = [] ∨
          (((total / 2 : Nat) : Int)) + (n : Int) ≤ ((s.length : Nat) : Int)) := by
        push_neg
        exact ⟨h, by omega⟩
      have hps : padStartJS s ((((total / 2 : Nat) : Int)) + (n : Int)) fill
          = repeatTo (total / 2) fill ++ s := by
        unfold padStartJS
        rw [if_neg hcond, harg]
      have hlen1 : (repeatTo (total / 2) fill ++ s).length = total / 2 + n := by
        simp [List.length_append, repeatTo_length h]
      have hhl : total / 2 < total := Nat.div_lt_self (by omega) (by omega)
      have hcond2 : ¬(fill = [] ∨
          L ≤ (((repeatTo (total / 2) fill ++ s).length : Nat) : Int)) := by
        push_neg
        refine ⟨h, ?_⟩
        rw [hlen1]
        push_cast
        omega
      have harg2 : L.toNat - (repeatTo (total / 2) fill ++ s).length
          = total - total / 2 := by
        rw [hlen1]
        omega
      have hpe : padEndJS (repeatTo (total / 2) fill ++ s) L fill =
          (repeatTo (total / 2) fill ++ s) ++
            repeatTo (total - total / 2) fill := by
        unfold padEndJS
        rw [if_neg hcond2, harg2]
      have hres : pad s L fill = (repeatTo (total / 2) fill ++ s) ++
          repeatTo (total - total / 2) fill := by
        rw [hone, hps, hpe]
      refine ⟨?_, ?_, fun hc => absurd hc (by omega)⟩
      · rw [hres]
        simp only [List.length_append, repeatTo_length h]
        omega
      · rw [hres, List.append_assoc]

/-- Witness for C9 at the example from the source documentation:
`pad("pad", 5, "-") = "-pad-"`. -/
theorem c9_pad_characterization_witness :
    "-".data ≠ [] ∧
      (pad "pad".data 5 "-".data).length = max (Int.toNat 5) "pad".data.length ∧
      ((("pad".data.length : Int) ≥ 5) → pad "pad".data 5 "-".data = "pad".data) :=
  ⟨by decide,
    (c9_pad_characterization "pad".data 5 "-".data (by decide)).1,
    (c9_pad_characterization "pad".data 5 "-".data (by decide)).2.2⟩


/-! ### Support lemmas for the key-derivation claims -/

theorem matchAt_eq_of_alt1 {T : CharTable} {l : List Char}
    {p : List Char × List Char} (h : alt1 T l = some p) :
    matchAt T l = some p := by
  simp [matchAt, h, Option.orElse]

theorem matchAt_eq_of_alt3 {T : CharTable} {l : List Char}
    {p : List Char × List Char} (h1 : alt1 T l = none) (h2 : alt2 l = none)
    (h3 : alt3 T l = some p) : matchAt T l = some p := by
  simp [matchAt, h1, h2, h3, Option.orElse]

theorem joinSep_cons_eq (sep : Char) (t : List Char) (ts : List (List Char)) :
    joinSep sep (t :: ts) = t ++ (ts.map fun u => sep :: u).flatten := by
  induction ts generalizing t with
  | nil => simp [joinSep]
  | cons u us ih =>
    have e : joinSep sep (t :: u :: us) = t ++ sep :: joinSep sep (u :: us) := rfl
    rw [e, ih u]
    simp

theorem lowerStr_std (t : List Char) :
    lowerStr stdTable t = t.map Char.toLower := by
  induction t with
  | nil => rfl
  | cons c r ih => simp [lowerStr, stdTable] at ih ⊢; rw [ih]

theorem upperStr_std (t : List Char) :
    upperStr stdTable t = t.map Char.toUpper := by
  induction t with
  | nil => rfl
  | cons c r ih => simp [upperStr, stdTable] at ih ⊢; rw [ih]

theorem map_toLower_fix {t : List Char}
    (h : ∀ c ∈ t, c.isUpper = false) : t.map Char.toLower = t := by
  induction t with
  | nil => rfl
  | cons c r ih =>
    rw [List.map_cons, toLower_of_not_upper (h c (List.mem_cons_self c r)),
      ih fun d hd => h d (List.mem_cons_of_mem c hd)]

theorem map_toLower_fix_lower {t : List Char}
    (h : ∀ c ∈ t, c.isLower = true) : t.map Char.toLower = t :=
  map_toLower_fix fun c hc => isUpper_of_isLower (h c hc)

theorem snakeKeyRaw_append_of_not_upper {a b : List Char}
    (h : ∀ c ∈ a, c.isUpper = false) :
    snakeKeyRaw (a ++ b) = a ++ snakeKeyRaw b := by
  induction a with
  | nil => rfl
  | cons c r ih =>
    rw [List.cons_append, snakeKeyRaw,
      if_neg (by rw [h c (List.mem_cons_self c r)]; exact Bool.noConfusion),
      ih fun d hd => h d (List.mem_cons_of_mem c hd), List.cons_append]

theorem snakeKeyRaw_cons_upper {c : Char} {r : List Char}
    (h : c.isUpper = true) :
    snakeKeyRaw (c :: r) = '_' :: c :: snakeKeyRaw r := by
  rw [snakeKeyRaw, if_pos h]

theorem noAdjacentUppers_cons {c d : Char} {r : List Char}
    (h : noAdjacentUppers (c :: d :: r) = true) :
    (c.isUpper && d.isUpper) = false ∧ noAdjacentUppers (d :: r) = true := by
  rw [noAdjacentUppers, Bool.and_eq_true] at h
  exact ⟨by rw [Bool.not_eq_true'] at h; exact h.1, h.2⟩

theorem noAdjacentUppers_tail {c : Char} {r : List Char}
    (h : noAdjacentUppers (c :: r) = true) : noAdjacentUppers r = true := by
  cases r with
  | nil => rfl
  | cons d s => exact (noAdjacentUppers_cons h).2

theorem noAdjacentUppers_suffix {a b : List Char}
    (h : noAdjacentUppers (a ++ b) = true) : noAdjacentUppers b = true := by
  induction a with
  | nil => exact h
  | cons c r ih =>
    rw [List.cons_append] at h
    exact ih (noAdjacentUppers_tail h)

theorem takeWhile_mem {p : Char → Bool} {l : List Char} {c : Char}
    (h : c ∈ l.takeWhile p) : c ∈ l ∧ p c = true := by
  induction l with
  | nil => simp at h
  | cons a r ih =>
    rw [List.takeWhile_cons] at h
    split at h
    · rcases List.mem_cons.mp h with rfl | h2
      · exact ⟨List.mem_cons_self _ _, by assumption⟩
      · obtain ⟨hm, hp⟩ := ih h2
        exact ⟨List.mem_cons_of_mem a hm, hp⟩
    · simp at h

theorem dropWhile_head_not {p : Char → Bool} {l : List Char} {d : Char}
    {s : List Char} (h : l.dropWhile p = d :: s) : p d = false := by
  induction l with
  | nil => simp at h
  | cons a r ih =>
    rw [List.dropWhile_cons] at h
    split at h
    · exact ih h
    · injection h with h1 _
      rw [← h1]
      rw [Bool.not_eq_true] at *
      assumption


theorem camelTailAux (N : Nat) :
    ∀ k : List Char, k.length ≤ N → (∀ c ∈ k, c.isAlpha = true) →
      noAdjacentUppers k = true → (k = [] ∨ headIsUpper k = true) →
      ((words stdTable k).map fun t => '_' :: t.map Char.toLower).flatten
        = (snakeKeyRaw k).map Char.toLower := by
  induction N with
  | zero =>
    intro k hlen _ _ _
    have h0 : k = [] := List.eq_nil_of_length_eq_zero (Nat.le_zero.mp hlen)
    subst h0
    simp [words, scanAux, snakeKeyRaw]
  | succ N ih =>
    intro k hlen hA hN hH
    cases k with
    | nil => simp [words, scanAux, snakeKeyRaw]
    | cons U rest =>
      have hU : U.isUpper = true := by
        rcases hH with h0 | h1
        · exact List.noConfusion h0
        · exact h1
      have hUlow : U.isLower = false := isLower_of_isUpper hU
      have hUdig : isDigitChar U = false := by
        cases hd : isDigitChar U with
        | false => rfl
        | true => rw [isUpper_of_isDigit hd] at hU; exact Bool.noConfusion hU
      cases hlr : rest.takeWhile Char.isLower with
      | nil =>
        have hrest : rest = [] := by
          cases rest with
          | nil => rfl
          | cons d s =>
            rw [List.takeWhile_cons] at hlr
            have hd : d.isLower = false := by
              split at hlr
              · exact List.noConfusion hlr
              · rw [Bool.not_eq_true] at *; assumption
            have hdAlpha : d.isAlpha = true :=
              hA d (List.mem_cons_of_mem U (List.mem_cons_self d s))
            have hdUp : d.isUpper = true := by
              simp only [Char.isAlpha, Bool.or_eq_true] at hdAlpha
              rcases hdAlpha with h1 | h1
              · exact h1
              · rw [h1] at hd; exact Bool.noConfusion hd
            have := (noAdjacentUppers_cons hN).1
            rw [hU, hdUp] at this
            exact Bool.noConfusion this
        subst hrest
        have halt1 : alt1 stdTable [U] = none := by
          simp [alt1, stdTable, hU, hUlow]
        have halt2 : alt2 [U] = none := by
          simp [alt2, List.takeWhile_cons, hUdig]
        have halt3 : alt3 stdTable [U] = some ([U], []) := by
          simp [alt3, stdTable, List.takeWhile_cons, hU]
        have hma := matchAt_eq_of_alt3 halt1 halt2 halt3
        rw [words_cons_match hma]
        simp only [words, scanAux]
        rw [snakeKeyRaw_cons_upper hU]
        simp [snakeKeyRaw]
      | cons e lr2 =>
        set lr := rest.takeWhile Char.isLower with hlrdef
        set k3 := rest.dropWhile Char.isLower with hk3
        have hlrne : lr ≠ [] := by rw [hlr]; exact List.cons_ne_nil _ _
        have hcond : (Char.isUpper U &&
            !(List.takeWhile Char.isLower rest).isEmpty) = true := by
          rw [Bool.and_eq_true, hU]
          exact ⟨rfl, by rw [← hlrdef, hlr]; rfl⟩
        have halt1 : alt1 stdTable (U :: rest) = some (U :: lr, k3) := by
          simp only [alt1, stdTable]
          rw [if_pos hcond]
        have hma := matchAt_eq_of_alt1 halt1
        rw [words_cons_match hma]
        have hcat : lr ++ k3 = rest :=
          List.takeWhile_append_dropWhile Char.isLower rest
        have hsuffix : ∃ a, a ++ k3 = rest := ⟨lr, hcat⟩
        obtain ⟨a, ha⟩ := hsuffix
        have hA3 : ∀ c ∈ k3, c.isAlpha = true := by
          intro c hc
          apply hA
          apply List.mem_cons_of_mem
          rw [← ha]
          exact List.mem_append_right a hc
        have hN3 : noAdjacentUppers k3 = true := by
          apply noAdjacentUppers_suffix (a := a)
          rw [ha]
          exact noAdjacentUppers_tail hN
        have hH3 : k3 = [] ∨ headIsUpper k3 = true := by
          cases hk : k3 with
          | nil => exact Or.inl rfl
          | cons d s =>
            right
            have hd : d.isLower = false := dropWhile_head_not (hk3.symm.trans hk)
            have hdAlpha : d.isAlpha = true := by
              apply hA3
              rw [hk]; exact List.mem_cons_self d s
            rw [headIsUpper]
            simp only [Char.isAlpha, Bool.or_eq_true] at hdAlpha
            rcases hdAlpha with h1 | h1
            · exact h1
            · rw [h1] at hd; exact Bool.noConfusion hd
        have hlen3 : k3.length ≤ N := by
          have h1 : lr.length + k3.length = rest.length := by
            rw [← List.length_append, hcat]
          have h2 : 1 ≤ lr.length := by
            cases hl : lr with
            | nil => exact absurd hl hlrne
            | cons x y => simp
          simp only [List.length_cons] at hlen
          omega
        have hIH := ih k3 hlen3 hA3 hN3 hH3
        have hlrLow : ∀ c ∈ lr, c.isLower = true := by
          intro c hc
          exact (takeWhile_mem (hlrdef ▸ hc)).2
        have hlrNotUp : ∀ c ∈ lr, c.isUpper = false :=
          fun c hc => isUpper_of_isLower (hlrLow c hc)
        have hskr : snakeKeyRaw (U :: rest) = '_' :: U :: (lr ++ snakeKeyRaw k3) := by
          rw [snakeKeyRaw_cons_upper hU, ← hcat,
            snakeKeyRaw_append_of_not_upper hlrNotUp]
        rw [List.map_cons, List.flatten_cons, hIH, hskr]
        simp only [List.map_cons, List.map_append]
        rw [toLower_of_not_upper (by decide : ('_').isUpper = false),
          map_toLower_fix_lower hlrLow]
        simp

theorem snakeKey_eq_snakeCase_of_camelShaped {k : List Char}
    (h : isCamelShapedKey k = true) : snakeKey k = snakeCase stdTable k := by
  cases k with
  | nil => exact Bool.noConfusion h
  | cons c rest =>
    rw [isCamelShapedKey, Bool.and_eq_true, Bool.and_eq_true] at h
    obtain ⟨⟨hc, hAll⟩, hN⟩ := h
    have hA : ∀ d ∈ c :: rest, d.isAlpha = true := by
      rw [List.all_eq_true] at hAll
      intro d hd
      exact hAll d hd
    have hcUp : c.isUpper = false := isUpper_of_isLower hc
    set k1 := (c :: rest).takeWhile Char.isLower with hk1
    set k2 := (c :: rest).dropWhile Char.isLower with hk2
    have halt1 : alt1 stdTable (c :: rest) = some (k1, k2) := by
      simp only [alt1, stdTable]
      rw [if_neg, if_pos hc]
      rw [Bool.and_eq_true]
      intro hcon
      rw [hcUp] at hcon
      exact Bool.noConfusion hcon.1
    have hma := matchAt_eq_of_alt1 halt1
    have hcat : k1 ++ k2 = c :: rest :=
      List.takeWhile_append_dropWhile Char.isLower (c :: rest)
    have hk1Low : ∀ d ∈ k1, d.isLower = true := by
      intro d hd
      exact (takeWhile_mem (hk1 ▸ hd)).2
    have hk1NotUp : ∀ d ∈ k1, d.isUpper = false :=
      fun d hd => isUpper_of_isLower (hk1Low d hd)
    have hA2 : ∀ d ∈ k2, d.isAlpha = true := by
      intro d hd
      apply hA
      rw [← hcat]
      exact List.mem_append_right k1 hd
    have hN2 : noAdjacentUppers k2 = true := by
      apply noAdjacentUppers_suffix (a := k1)
      rw [hcat]
      exact hN
    have hH2 : k2 = [] ∨ headIsUpper k2 = true := by
      cases hk : k2 with
      | nil => exact Or.inl rfl
      | cons d s =>
        right
        have hd : d.isLower = false := dropWhile_head_not (hk2.symm.trans hk)
        have hdAlpha : d.isAlpha = true := by
          apply hA2
          rw [hk]; exact List.mem_cons_self d s
        rw [headIsUpper]
        simp only [Char.isAlpha, Bool.or_eq_true] at hdAlpha
        rcases hdAlpha with h1 | h1
        · exact h1
        · rw [h1] at hd; exact Bool.noConfusion hd
    have hCT := camelTailAux k2.length k2 (Nat.le_refl _) hA2 hN2 hH2
    rw [snakeCase, words_cons_match hma, List.map_cons, joinSep_cons_eq]
    rw [lowerStr_std, map_toLower_fix_lower hk1Low]
    have hmm : (List.map (fun u => '_' :: u)
        (List.map (lowerStr stdTable) (words stdTable k2))).flatten
        = ((words stdTable k2).map fun t => '_' :: t.map Char.toLower).flatten := by
      rw [List.map_map]
      congr 1
      apply List.map_congr_left
      intro t _
      simp [Function.comp, lowerStr_std]
    rw [hmm, hCT]
    rw [snakeKey, ← hcat, snakeKeyRaw_append_of_not_upper hk1NotUp]
    rw [List.map_append, map_toLower_fix_lower hk1Low]


theorem toSnakeCaseObj_eq_map (kvs : List (List Char × SValue)) :
    toSnakeCaseObj kvs = kvs.map fun p => (snakeKey p.1, toSnakeCase p.2) := by
  induction kvs with
  | nil => simp [toSnakeCaseObj]
  | cons p kvs ih =>
    obtain ⟨k, v⟩ := p
    simp [toSnakeCaseObj, ih]

/-- C3 counterexample: on the key `"FirstName"` the ad-hoc derivation
inside `toSnakeCase` (`key.replace(/([A-Z])/g, "_$1").toLowerCase()`)
produces `"_first_name"`, while the segmenter-based `snakeCase` produces
`"first_name"` — so the two key derivations do not agree on every key. -/
theorem c3_counterexample :
    toSnakeCase (SValue.obj [("FirstName".data, SValue.prim "x")]) =
      SValue.obj [("_first_name".data, SValue.prim "x")] ∧
    snakeCase stdTable "FirstName".data = "first_name".data ∧
    "_first_name".data ≠ "first_name".data := by
  refine ⟨?_, by decide, by decide⟩
  have hk : snakeKey "FirstName".data = "_first_name".data := by decide
  simp only [toSnakeCase, toSnakeCaseObj_eq_map, List.map_cons, List.map_nil, hk]
  simp [dedupAssoc, setKey, toSnakeCase]

/-- C3 (amended): for every keyed mapping whose keys are ASCII
camelCase-shaped identifiers (nonempty, ASCII letters only, starting
with a lowercase letter, no two adjacent uppercase letters), each output
key of `toSnakeCase` equals the Case Transform Layer's `snakeCase` of
the original key, with values recursively recased and JavaScript
last-write-wins assignment on key collisions; on general keys the two
derivations differ (e.g. on `"FirstName"`). -/
theorem c3_amended (kvs : List (List Char × SValue))
    (h : ∀ p ∈ kvs, isCamelShapedKey p.1 = true) :
    toSnakeCase (SValue.obj kvs) =
      SValue.obj (dedupAssoc
        (kvs.map fun p => (snakeCase stdTable p.1, toSnakeCase p.2))) := by
  simp only [toSnakeCase]
  congr 1
  congr 1
  rw [toSnakeCaseObj_eq_map]
  apply List.map_congr_left
  intro p hp
  rw [snakeKey_eq_snakeCase_of_camelShaped (h p hp)]

/-- Witness for C3 (amended) on the documentation example key
`firstName`. -/
theorem c3_amended_witness :
    (∀ p ∈ [("firstName".data, SValue.prim "x")], isCamelShapedKey p.1 = true) ∧
      toSnakeCase (SValue.obj [("firstName".data, SValue.prim "x")]) =
        SValue.obj (dedupAssoc ([("firstName".data, SValue.prim "x")].map
          fun p => (snakeCase stdTable p.1, toSnakeCase p.2))) :=
  ⟨by decide, c3_amended _ (by decide)⟩


/-- C6: the claim (with the spec) says the snake_case-derived key maps
to the recursively recased value; in the code the re-assignment after
recursion updates only the original and camelCase-derived keys
(`acc[key] = converted; acc[camelKey] = converted;`), so the
snake_case-derived key keeps the raw, un-recased value whenever the
value is a nested mapping or sequence.  Evaluation at the failing input
`{aB: {cD: "x"}}`: the key `a_b` maps to the raw `{cD: "x"}`, which
differs from its recased form. -/
theorem c6_convertKeysWithBoth_snake_key_raw :
    convertKeysWithBoth
        (SValue.obj [(['a','B'], SValue.obj [(['c','D'], SValue.prim "x")])]) =
      SValue.obj
        [(['a','B'], SValue.obj
            [(['c','D'], SValue.prim "x"), (['c','_','d'], SValue.prim "x")]),
          (['a','_','b'], SValue.obj [(['c','D'], SValue.prim "x")])] ∧
    lookupKey
        [(['a','B'], SValue.obj
            [(['c','D'], SValue.prim "x"), (['c','_','d'], SValue.prim "x")]),
          (['a','_','b'], SValue.obj [(['c','D'], SValue.prim "x")])]
        ['a','_','b'] =
      some (SValue.obj [(['c','D'], SValue.prim "x")]) ∧
    convertKeysWithBoth (SValue.obj [(['c','D'], SValue.prim "x")]) ≠
      SValue.obj [(['c','D'], SValue.prim "x")] := by
  have hks : snakeKey ['c','D'] = ['c','_','d'] := by decide
  have hkc : camelKey ['c','D'] = ['c','D'] := by decide
  have hks2 : snakeKey ['a','B'] = ['a','_','b'] := by decide
  have hkc2 : camelKey ['a','B'] = ['a','B'] := by decide
  have e1 : convertKeysWithBoth (SValue.obj [(['c','D'], SValue.prim "x")]) =
      SValue.obj [(['c','D'], SValue.prim "x"), (['c','_','d'], SValue.prim "x")] := by
    simp [convertKeysWithBoth, convertKeysWithBothObj, isComposite, hks, hkc, setKey]
  refine ⟨?_, rfl, ?_⟩
  · simp [convertKeysWithBoth, convertKeysWithBothObj, isComposite, hks, hkc,
      hks2, hkc2, setKey, e1]
  · rw [e1]
    intro hc
    simp at hc


/-! ### Separator-append lemmas for the segmenter -/

theorem tw_sep {p : Char → Bool} {s : Char} (hps : p s = false) :
    ∀ a y : List Char, (a ++ s :: y).takeWhile p = a.takeWhile p := by
  intro a y
  induction a with
  | nil => simp [List.takeWhile_cons, hps]
  | cons c r ih =>
    rw [List.cons_append, List.takeWhile_cons, List.takeWhile_cons]
    split
    · rw [ih]
    · rfl

theorem dw_sep {p : Char → Bool} {s : Char} (hps : p s = false) :
    ∀ a y : List Char, (a ++ s :: y).dropWhile p = a.dropWhile p ++ s :: y := by
  intro a y
  induction a with
  | nil => simp [List.dropWhile_cons, hps]
  | cons c r ih =>
    rw [List.cons_append, List.dropWhile_cons, List.dropWhile_cons]
    split
    · rw [ih]
    · rfl

theorem tw_all {p : Char → Bool} {l : List Char}
    (h : ∀ c ∈ l, p c = true) : l.takeWhile p = l := by
  induction l with
  | nil => rfl
  | cons c r ih =>
    rw [List.takeWhile_cons, if_pos (h c (List.mem_cons_self c r)),
      ih fun d hd => h d (List.mem_cons_of_mem c hd)]

theorem dw_all {p : Char → Bool} {l : List Char}
    (h : ∀ c ∈ l, p c = true) : l.dropWhile p = [] := by
  induction l with
  | nil => rfl
  | cons c r ih =>
    rw [List.dropWhile_cons, if_pos (h c (List.mem_cons_self c r)),
      ih fun d hd => h d (List.mem_cons_of_mem c hd)]

theorem alt1_append {T : CharTable} {s : Char} (hu : T.isUpper s = false)
    (hl : T.isLower s = false) (a y : List Char) :
    alt1 T (a ++ s :: y) = (alt1 T a).map fun pr => (pr.1, pr.2 ++ s :: y) := by
  cases a with
  | nil => simp [alt1, hu, hl]
  | cons c r =>
    rw [List.cons_append]
    have e1 := tw_sep hl r y
    have e2 := dw_sep hl r y
    have e3 : (c :: (r ++ s :: y)).takeWhile T.isLower
        = (c :: r).takeWhile T.isLower := by
      rw [← List.cons_append]
      exact tw_sep hl (c :: r) y
    have e4 : (c :: (r ++ s :: y)).dropWhile T.isLower
        = (c :: r).dropWhile T.isLower ++ s :: y := by
      rw [← List.cons_append]
      exact dw_sep hl (c :: r) y
    simp only [alt1, e1, e2, e3, e4]
    by_cases h1 : (T.isUpper c && !(r.takeWhile T.isLower).isEmpty) = true
    · rw [if_pos h1, if_pos h1]
      simp
    · rw [if_neg h1, if_neg h1]
      by_cases h2 : T.isLower c = true
      · rw [if_pos h2, if_pos h2]
        simp
      · rw [if_neg h2, if_neg h2]
        rfl

theorem alt2_append {s : Char} (hd : isDigitChar s = false) (a y : List Char) :
    alt2 (a ++ s :: y) = (alt2 a).map fun pr => (pr.1, pr.2 ++ s :: y) := by
  have e1 := tw_sep hd a y
  have e2 := dw_sep hd a y
  simp only [alt2, e1, e2]
  by_cases h1 : (a.takeWhile isDigitChar).isEmpty = true
  · rw [if_pos h1, if_pos h1]
    rfl
  · rw [if_neg h1, if_neg h1]
    simp

theorem alt3_append {T : CharTable} {s : Char} (hu : T.isUpper s = false)
    (hl : T.isLower s = false) (a y : List Char) :
    alt3 T (a ++ s :: y) = (alt3 T a).map fun pr => (pr.1, pr.2 ++ s :: y) := by
  have e1 := tw_sep hu a y
  have e2 := dw_sep hu a y
  simp only [alt3, e1, e2]
  by_cases h1 : (a.takeWhile T.isUpper).isEmpty = true
  · rw [if_pos h1, if_pos h1]
    rfl
  · rw [if_neg h1, if_neg h1]
    cases hra : a.dropWhile T.isUpper with
    | nil =>
      simp only [hra, List.nil_append]
      rw [if_neg (by rw [hl]; exact Bool.noConfusion)]
      rfl
    | cons d r2 =>
      simp only [hra, List.cons_append]
      by_cases h2 : T.isLower d = true
      · rw [if_pos h2, if_pos h2]
        by_cases h3 : 2 ≤ (a.takeWhile T.isUpper).length
        · rw [if_pos h3, if_pos h3]
          simp
        · rw [if_neg h3, if_neg h3]
          rfl
      · rw [if_neg h2, if_neg h2]
        simp

theorem alt4_append {T : CharTable} {s : Char}
    (hep : T.isEmojiPresentation s = false) (a y : List Char) :
    alt4 T (a ++ s :: y) = (alt4 T a).map fun pr => (pr.1, pr.2 ++ s :: y) := by
  cases a with
  | nil => simp [alt4, hep]
  | cons c r =>
    rw [List.cons_append]
    simp only [alt4]
    by_cases h1 : T.isEmojiPresentation c = true
    · rw [if_pos h1, if_pos h1]
      rfl
    · rw [if_neg h1, if_neg h1]
      rfl

theorem alt5_append {T : CharTable} {s : Char}
    (hxp : T.isExtendedPictographic s = false) (a y : List Char) :
    alt5 T (a ++ s :: y) = (alt5 T a).map fun pr => (pr.1, pr.2 ++ s :: y) := by
  cases a with
  | nil => simp [alt5, hxp]
  | cons c r =>
    rw [List.cons_append]
    simp only [alt5]
    by_cases h1 : T.isExtendedPictographic c = true
    · rw [if_pos h1, if_pos h1]
      rfl
    · rw [if_neg h1, if_neg h1]
      rfl

theorem alt6_append {T : CharTable} {s : Char} (hlet : T.isLetter s = false)
    (a y : List Char) :
    alt6 T (a ++ s :: y) = (alt6 T a).map fun pr => (pr.1, pr.2 ++ s :: y) := by
  have e1 := tw_sep hlet a y
  have e2 := dw_sep hlet a y
  simp only [alt6, e1, e2]
  by_cases h1 : (a.takeWhile T.isLetter).isEmpty = true
  · rw [if_pos h1, if_pos h1]
    rfl
  · rw [if_neg h1, if_neg h1]
    simp

theorem matchAt_append_sep {T : CharTable} {s : Char}
    (hs : matchableChar T s = false) (a y : List Char) :
    matchAt T (a ++ s :: y) = (matchAt T a).map fun pr => (pr.1, pr.2 ++ s :: y) := by
  simp only [matchableChar, Bool.or_eq_false_iff] at hs
  obtain ⟨⟨⟨⟨⟨hu, hl⟩, hd⟩, hep⟩, hxp⟩, hlet⟩ := hs
  have e1 := alt1_append hu hl a y
  have e2 := alt2_append hd a y
  have e3 := alt3_append hu hl a y
  have e4 := alt4_append hep a y
  have e5 := alt5_append hxp a y
  have e6 := alt6_append hlet a y
  unfold matchAt
  rw [e1, e2, e3, e4, e5, e6]
  cases alt1 T a <;> cases alt2 a <;> cases alt3 T a <;> cases alt4 T a <;>
    cases alt5 T a <;> cases alt6 T a <;> simp [Option.orElse, Option.map]

theorem words_append_sep_aux {T : CharTable} {s : Char}
    (hs : matchableChar T s = false) (N : Nat) :
    ∀ a y : List Char, a.length ≤ N →
      words T (a ++ s :: y) = words T a ++ words T y := by
  induction N with
  | zero =>
    intro a y hlen
    have h0 : a = [] := List.eq_nil_of_length_eq_zero (Nat.le_zero.mp hlen)
    subst h0
    rw [List.nil_append, words_cons_skip (matchAt_none_iff.mpr hs)]
    rfl
  | succ N ih =>
    intro a y hlen
    cases a with
    | nil =>
      rw [List.nil_append, words_cons_skip (matchAt_none_iff.mpr hs)]
      rfl
    | cons c r =>
      cases hm : matchAt T (c :: r) with
      | none =>
        have hm2 : matchAt T (c :: (r ++ s :: y)) = none := by
          rw [← List.cons_append, matchAt_append_sep hs, hm]
          rfl
        simp only [List.length_cons] at hlen
        calc words T ((c :: r) ++ s :: y)
            = words T (c :: (r ++ s :: y)) := by rw [List.cons_append]
          _ = words T (r ++ s :: y) := words_cons_skip hm2
          _ = words T r ++ words T y := ih r y (by omega)
          _ = words T (c :: r) ++ words T y := by rw [words_cons_skip hm]
      | some p =>
        obtain ⟨tok, rest⟩ := p
        have hm2 : matchAt T ((c :: r) ++ s :: y) = some (tok, rest ++ s :: y) := by
          rw [matchAt_append_sep hs, hm]
          rfl
        have hlt := matchAt_rest_lt hm
        simp only [List.length_cons] at hlen hlt
        rw [words_cons_match hm2, words_cons_match hm,
          ih rest y (by omega), List.cons_append]

theorem words_append_sep {T : CharTable} {s : Char}
    (hs : matchableChar T s = false) (a y : List Char) :
    words T (a ++ s :: y) = words T a ++ words T y :=
  words_append_sep_aux hs a.length a y (Nat.le_refl _)


/-! ### Token shapes and lowered-token stability -/

theorem matchAt_token_chars {T : CharTable} {l tok rest : List Char}
    (h : matchAt T l = some (tok, rest)) :
    (∃ c t, tok = c :: t ∧ T.isUpper c = true ∧ ∀ d ∈ t, T.isLower d = true)
    ∨ (∀ d ∈ tok, T.isLower d = true)
    ∨ (∀ d ∈ tok, isDigitChar d = true)
    ∨ (∀ d ∈ tok, T.isUpper d = true)
    ∨ (∃ e, tok = [e] ∧
        (T.isEmojiPresentation e = true ∨ T.isExtendedPictographic e = true))
    ∨ (∀ d ∈ tok, T.isLetter d = true) := by
  rcases matchAt_alt_cases h with h1 | h1 | h1 | h1 | h1 | h1
  · cases l with
    | nil => exact absurd h1 (by simp [alt1])
    | cons c r =>
      simp only [alt1] at h1
      split at h1
      · rename_i hcond
        rw [Option.some.injEq, Prod.mk.injEq] at h1
        obtain ⟨hq1, _⟩ := h1
        rw [Bool.and_eq_true] at hcond
        exact Or.inl ⟨c, r.takeWhile T.isLower, hq1.symm, hcond.1,
          fun d hd => (takeWhile_mem hd).2⟩
      · split at h1
        · rw [Option.some.injEq, Prod.mk.injEq] at h1
          obtain ⟨hq1, _⟩ := h1
          right; left
          intro d hd
          rw [← hq1] at hd
          exact (takeWhile_mem hd).2
        · exact absurd h1 (by simp)
  · unfold alt2 at h1
    split at h1
    · exact Option.noConfusion h1
    · rw [Option.some.injEq, Prod.mk.injEq] at h1
      obtain ⟨hq1, _⟩ := h1
      right; right; left
      intro d hd
      rw [← hq1] at hd
      exact (takeWhile_mem hd).2
  · simp only [alt3] at h1
    split at h1
    · exact Option.noConfusion h1
    · have hsub : ∀ d ∈ tok, d ∈ l.takeWhile T.isUpper := by
        split at h1
        · rw [Option.some.injEq, Prod.mk.injEq] at h1
          obtain ⟨hq1, _⟩ := h1
          intro d hd
          rw [← hq1] at hd
          exact hd
        · split at h1
          · split at h1
            · rw [Option.some.injEq, Prod.mk.injEq] at h1
              obtain ⟨hq1, _⟩ := h1
              intro d hd
              rw [← hq1] at hd
              exact List.mem_of_mem_take hd
            · exact Option.noConfusion h1
          · rw [Option.some.injEq, Prod.mk.injEq] at h1
            obtain ⟨hq1, _⟩ := h1
            intro d hd
            rw [← hq1] at hd
            exact hd
      right; right; right; left
      intro d hd
      exact (takeWhile_mem (hsub d hd)).2
  · cases l with
    | nil => exact absurd h1 (by simp [alt4])
    | cons c r =>
      simp only [alt4] at h1
      split at h1
      · rw [Option.some.injEq, Prod.mk.injEq] at h1
        obtain ⟨hq1, _⟩ := h1
        right; right; right; right; left
        exact ⟨c, hq1.symm, Or.inl (by assumption)⟩
      · exact absurd h1 (by simp)
  · cases l with
    | nil => exact absurd h1 (by simp [alt5])
    | cons c r =>
      simp only [alt5] at h1
      split at h1
      · rw [Option.some.injEq, Prod.mk.injEq] at h1
        obtain ⟨hq1, _⟩ := h1
        right; right; right; right; left
        exact ⟨c, hq1.symm, Or.inr (by assumption)⟩
      · exact absurd h1 (by simp)
  · unfold alt6 at h1
    split at h1
    · exact Option.noConfusion h1
    · rw [Option.some.injEq, Prod.mk.injEq] at h1
      obtain ⟨hq1, _⟩ := h1
      right; right; right; right; right
      intro d hd
      rw [← hq1] at hd
      exact (takeWhile_mem hd).2

theorem matchAt_eq_of_alt2 {T : CharTable} {l : List Char}
    {p : List Char × List Char} (h1 : alt1 T l = none) (h2 : alt2 l = some p) :
    matchAt T l = some p := by
  simp [matchAt, h1, h2, Option.orElse]

theorem words_single_all_lower {t : List Char} (hne : t ≠ [])
    (h : ∀ c ∈ t, c.isLower = true) : words stdTable t = [t] := by
  cases t with
  | nil => exact absurd rfl hne
  | cons c r =>
    have hc : c.isLower = true := h c (List.mem_cons_self c r)
    have halt1 : alt1 stdTable (c :: r) = some (c :: r, []) := by
      simp only [alt1, stdTable]
      rw [if_neg, if_pos hc, tw_all h, dw_all h]
      rw [Bool.and_eq_true]
      intro hcon
      rw [isUpper_of_isLower hc] at hcon
      exact Bool.noConfusion hcon.1
    rw [words_cons_match (matchAt_eq_of_alt1 halt1)]
    rfl

theorem words_single_all_digit {t : List Char} (hne : t ≠ [])
    (h : ∀ c ∈ t, isDigitChar c = true) : words stdTable t = [t] := by
  cases t with
  | nil => exact absurd rfl hne
  | cons c r =>
    have hc : isDigitChar c = true := h c (List.mem_cons_self c r)
    have halt1 : alt1 stdTable (c :: r) = none := by
      simp [alt1, stdTable, isUpper_of_isDigit hc, isLower_of_isDigit hc]
    have halt2 : alt2 (c :: r) = some (c :: r, []) := by
      simp only [alt2]
      rw [tw_all h, dw_all h]
      rw [if_neg (by simp)]
    rw [words_cons_match (matchAt_eq_of_alt2 halt1 halt2)]
    rfl

theorem words_single_all_upper {t : List Char} (hne : t ≠ [])
    (h : ∀ c ∈ t, c.isUpper = true) : words stdTable t = [t] := by
  cases t with
  | nil => exact absurd rfl hne
  | cons c r =>
    have hc : c.isUpper = true := h c (List.mem_cons_self c r)
    have hrlow : r.takeWhile Char.isLower = [] := by
      cases hr : r with
      | nil => rfl
      | cons d u =>
        rw [List.takeWhile_cons, if_neg]
        rw [isLower_of_isUpper (h d (by rw [hr]; simp))]
        exact Bool.noConfusion
    have halt1 : alt1 stdTable (c :: r) = none := by
      simp [alt1, stdTable, hrlow, isLower_of_isUpper hc]
    have halt2 : alt2 (c :: r) = none := by
      have hcd : isDigitChar c = false := by
        cases hd : isDigitChar c with
        | false => rfl
        | true => rw [isUpper_of_isDigit hd] at hc; exact Bool.noConfusion hc
      simp [alt2, List.takeWhile_cons, hcd]
    have halt3 : alt3 stdTable (c :: r) = some (c :: r, []) := by
      simp only [alt3, stdTable]
      rw [tw_all h, dw_all h]
      rw [if_neg (by simp)]
    rw [words_cons_match (matchAt_eq_of_alt3 halt1 halt2 halt3)]
    rfl

theorem words_single_emoji {e : Char}
    (he : stdTable.isEmojiPresentation e = true ∨
      stdTable.isExtendedPictographic e = true) :
    words stdTable [e] = [[e]] := by
  have hmem : e = '🔥' ∨ e = '😅' := by
    rcases he with h | h
    · simpa [stdTable, emojiPresentationChars] using h
    · simpa [stdTable, extendedPictographicChars] using h
  rcases hmem with rfl | rfl
  · decide
  · decide

theorem emoji_toLower_fix {e : Char}
    (he : stdTable.isEmojiPresentation e = true ∨
      stdTable.isExtendedPictographic e = true) : e.toLower = e := by
  have hmem : e = '🔥' ∨ e = '😅' := by
    rcases he with h | h
    · simpa [stdTable, emojiPresentationChars] using h
    · simpa [stdTable, extendedPictographicChars] using h
  rcases hmem with rfl | rfl
  · decide
  · decide

theorem token_lower_single {l tok rest : List Char}
    (h : matchAt stdTable l = some (tok, rest)) :
    words stdTable (tok.map Char.toLower) = [tok.map Char.toLower] := by
  have hne : tok ≠ [] := (matchAt_some h).1
  have hne2 : tok.map Char.toLower ≠ [] := by
    cases tok with
    | nil => exact absurd rfl hne
    | cons c r => simp
  rcases matchAt_token_chars h with hs | hs | hs | hs | hs | hs
  · obtain ⟨c, t, rfl, hc, ht⟩ := hs
    apply words_single_all_lower hne2
    rw [List.map_cons]
    intro d hd
    rcases List.mem_cons.mp hd with rfl | hd2
    · exact isLower_toLower hc
    · obtain ⟨x, hx, rfl⟩ := List.mem_map.mp hd2
      rw [toLower_of_isLower (ht x hx)]
      exact ht x hx
  · apply words_single_all_lower hne2
    intro d hd
    obtain ⟨x, hx, rfl⟩ := List.mem_map.mp hd
    rw [toLower_of_isLower (hs x hx)]
    exact hs x hx
  · apply words_single_all_digit hne2
    intro d hd
    obtain ⟨x, hx, rfl⟩ := List.mem_map.mp hd
    rw [toLower_of_isDigit (hs x hx)]
    exact hs x hx
  · apply words_single_all_lower hne2
    intro d hd
    obtain ⟨x, hx, rfl⟩ := List.mem_map.mp hd
    exact isLower_toLower (hs x hx)
  · obtain ⟨e, rfl, he⟩ := hs
    rw [List.map_cons, List.map_nil, emoji_toLower_fix he]
    exact words_single_emoji he
  · apply words_single_all_lower hne2
    intro d hd
    obtain ⟨x, hx, rfl⟩ := List.mem_map.mp hd
    exact isLower_toLower_of_alpha (hs x hx)

theorem mem_scanAux_matchAt {T : CharTable} :
    ∀ (f : Nat) (l tok : List Char), tok ∈ scanAux T f l →
      ∃ u rest, matchAt T u = some (tok, rest) := by
  intro f
  induction f with
  | zero => intro l tok h; exact absurd h (by simp [scanAux])
  | succ n ih =>
    intro l tok h
    cases l with
    | nil => exact absurd h (by simp [scanAux])
    | cons c r =>
      simp only [scanAux] at h
      cases hm : matchAt T (c :: r) with
      | some p =>
        obtain ⟨tk, rest⟩ := p
        rw [hm] at h
        rcases List.mem_cons.mp h with rfl | h2
        · exact ⟨c :: r, rest, hm⟩
        · exact ih rest tok h2
      | none =>
        rw [hm] at h
        exact ih r tok h

theorem mem_words_matchAt {T : CharTable} {l tok : List Char}
    (h : tok ∈ words T l) : ∃ u rest, matchAt T u = some (tok, rest) :=
  mem_scanAux_matchAt l.length l tok h


theorem map_fix {α : Type} {f : α → α} {xs : List α}
    (h : ∀ x ∈ xs, f x = x) : xs.map f = xs := by
  induction xs with
  | nil => rfl
  | cons x r ih =>
    rw [List.map_cons, h x (List.mem_cons_self x r),
      ih fun d hd => h d (List.mem_cons_of_mem x hd)]

theorem flatten_singletons {α : Type} (xs : List α) :
    (xs.map fun t => [t]).flatten = xs := by
  induction xs with
  | nil => rfl
  | cons x r ih => simp [ih]

theorem matchAt_chars_matchable {T : CharTable} {l tok rest : List Char}
    (h : matchAt T l = some (tok, rest)) :
    ∀ c ∈ tok, matchableChar T c = true := by
  intro c hc
  rcases matchAt_token_chars h with hs | hs | hs | hs | hs | hs
  · obtain ⟨d, t, rfl, hd, ht⟩ := hs
    rcases List.mem_cons.mp hc with rfl | hc2
    · simp [matchableChar, hd]
    · simp [matchableChar, ht c hc2]
  · simp [matchableChar, hs c hc]
  · simp [matchableChar, hs c hc]
  · simp [matchableChar, hs c hc]
  · obtain ⟨e, rfl, he⟩ := hs
    rcases List.mem_cons.mp hc with rfl | hc2
    · rcases he with he | he
      · simp [matchableChar, he]
      · simp [matchableChar, he]
    · simp at hc2
  · simp [matchableChar, hs c hc]

theorem words_joinSep_flatten (ts : List (List Char)) :
    words stdTable (joinSep '_' ts) = (ts.map (words stdTable)).flatten := by
  induction ts with
  | nil => rfl
  | cons t us ih =>
    cases us with
    | nil => simp [joinSep]
    | cons u vs =>
      have e : joinSep '_' (t :: u :: vs) = t ++ '_' :: joinSep '_' (u :: vs) := rfl
      rw [e, words_append_sep (by decide) t (joinSep '_' (u :: vs)), ih]
      simp

/-- C8: the string-level snake_case conversion is idempotent on every
input whose tokens contain no uppercase letters after one pass:
`snakeCase (snakeCase T) = snakeCase T`. -/
theorem c8_snakeCase_idempotent (l : List Char)
    (h : ∀ tok ∈ words stdTable (snakeCase stdTable l), ∀ c ∈ tok,
      c.isUpper = false) :
    snakeCase stdTable (snakeCase stdTable l) = snakeCase stdTable l := by
  have hwordsS : words stdTable (snakeCase stdTable l)
      = (words stdTable l).map (lowerStr stdTable) := by
    rw [snakeCase, words_joinSep_flatten]
    have hts : ∀ t ∈ (words stdTable l).map (lowerStr stdTable),
        words stdTable t = [t] := by
      intro t ht
      obtain ⟨tok, htok, rfl⟩ := List.mem_map.mp ht
      obtain ⟨u, rest, hm⟩ := mem_words_matchAt htok
      rw [lowerStr_std]
      exact token_lower_single hm
    rw [List.map_congr_left hts]
    exact flatten_singletons _
  have hfix : ∀ t ∈ words stdTable (snakeCase stdTable l),
      lowerStr stdTable t = t := by
    intro t ht
    rw [lowerStr_std]
    exact map_fix fun c hc => toLower_of_not_upper (h t ht c hc)
  conv_lhs => rw [snakeCase]
  rw [map_fix hfix, hwordsS]
  rfl

/-- Witness for C8 on `helloWorld`, whose one-pass output
`hello_world` has tokens with no uppercase letters. -/
theorem c8_snakeCase_idempotent_witness :
    (∀ tok ∈ words stdTable (snakeCase stdTable "helloWorld".data), ∀ c ∈ tok,
      c.isUpper = false) ∧
    snakeCase stdTable (snakeCase stdTable "helloWorld".data)
      = snakeCase stdTable "helloWorld".data :=
  ⟨by decide, c8_snakeCase_idempotent _ (by decide)⟩

theorem map_joinSep (f : Char → Char) (sep : Char) (ts : List (List Char)) :
    (joinSep sep ts).map f = joinSep (f sep) (ts.map fun t => t.map f) := by
  induction ts with
  | nil => rfl
  | cons t us ih =>
    cases us with
    | nil => simp [joinSep]
    | cons u vs =>
      have e : joinSep sep (t :: u :: vs) = t ++ sep :: joinSep sep (u :: vs) := rfl
      rw [e]
      simp only [List.map_append, List.map_cons, ih]
      rfl

/-- C10: `kebabCase` equals `snakeCase` with every underscore replaced
by a hyphen — both apply the same all-lower rule to the same token
sequence — and no token produced by segmentation contains an underscore
or a hyphen. -/
theorem c10_kebab_eq_snake_dashified (l : List Char) :
    kebabCase stdTable l = (snakeCase stdTable l).map underscoreToHyphen
    ∧ ∀ tok ∈ words stdTable l, '_' ∉ tok ∧ '-' ∉ tok := by
  constructor
  · rw [snakeCase, kebabCase, map_joinSep]
    rw [show underscoreToHyphen '_' = '-' from by decide]
    congr 1
    symm
    apply map_fix
    intro t ht
    obtain ⟨tok, htok, rfl⟩ := List.mem_map.mp ht
    obtain ⟨u, rest, hm⟩ := mem_words_matchAt htok
    rw [lowerStr_std]
    apply map_fix
    intro d hd
    obtain ⟨x, hx, rfl⟩ := List.mem_map.mp hd
    have hmx := matchAt_chars_matchable hm x hx
    rw [underscoreToHyphen, if_neg (toLower_ne_underscore hmx)]
  · intro tok htok
    obtain ⟨u, rest, hm⟩ := mem_words_matchAt htok
    constructor
    · intro hmem
      have h2 := matchAt_chars_matchable hm '_' hmem
      rw [show matchableChar stdTable '_' = false from by decide] at h2
      exact Bool.noConfusion h2
    · intro hmem
      have h2 := matchAt_chars_matchable hm '-' hmem
      rw [show matchableChar stdTable '-' = false from by decide] at h2
      exact Bool.noConfusion h2

theorem words_head_of_match {T : CharTable} {c : Char} (M : List Char)
    (hm : matchableChar T c = true) :
    ∃ tok2 rest, words T (c :: M) = (c :: tok2) :: words T rest := by
  obtain ⟨tok, rest, hsome⟩ := matchAt_isSome_of_matchable M hm
  obtain ⟨hne, hcat⟩ := matchAt_some hsome
  cases tok with
  | nil => exact absurd rfl hne
  | cons d t =>
    rw [List.cons_append] at hcat
    injection hcat with h1 h2
    subst h1
    exact ⟨t, rest, words_cons_match hsome⟩

theorem camelCase_head {c : Char} {M : List Char}
    (hm : matchableChar stdTable c = true) :
    ∃ r2, camelCase stdTable (c :: M) = c.toLower :: r2 := by
  obtain ⟨tok2, rest, hw⟩ := words_head_of_match M hm
  refine ⟨List.map Char.toLower tok2 ++
    ((words stdTable rest).map (capitalize stdTable)).flatten, ?_⟩
  simp only [camelCase, hw]
  rw [lowerStr_std, List.map_cons, List.cons_append]

theorem pascalCase_head {c : Char} {M : List Char}
    (hm : matchableChar stdTable c = true) :
    ∃ r2, pascalCase stdTable (c :: M) = c.toUpper :: r2 := by
  obtain ⟨tok2, rest, hw⟩ := words_head_of_match M hm
  refine ⟨lowerStr stdTable tok2 ++
    ((words stdTable rest).map (capitalize stdTable)).flatten, ?_⟩
  simp only [pascalCase, hw, List.map_cons, List.flatten_cons, capitalize]
  rw [show stdTable.toUpperChar c = [c.toUpper] from rfl]
  simp

theorem pascalCase_shape {l t t' : List Char} {ts : List (List Char)} {c : Char}
    (hw : words stdTable l = t :: ts) (ht : t = c :: t') :
    ∃ M, pascalCase stdTable l = c.toUpper :: M := by
  subst ht
  refine ⟨lowerStr stdTable t' ++ (ts.map (capitalize stdTable)).flatten, ?_⟩
  simp only [pascalCase, hw, List.map_cons, List.flatten_cons, capitalize]
  rw [show stdTable.toUpperChar c = [c.toUpper] from rfl]
  simp

theorem camelCase_shape {l t t' : List Char} {ts : List (List Char)} {c : Char}
    (hw : words stdTable l = t :: ts) (ht : t = c :: t') :
    ∃ M, camelCase stdTable l = c.toLower :: M := by
  subst ht
  refine ⟨List.map Char.toLower t' ++ (ts.map (capitalize stdTable)).flatten, ?_⟩
  simp only [camelCase, hw]
  rw [lowerStr_std, List.map_cons, List.cons_append]

/-- C7 counterexample: on `"123"` the token output is non-empty, yet
the first character of `camelCase (pascalCase "123")` is the digit `1`,
which is not lowercase (and the first character of
`pascalCase (camelCase "123")` is not uppercase). -/
theorem c7_counterexample :
    words stdTable "123".data ≠ [] ∧
      camelCase stdTable (pascalCase stdTable "123".data) = "123".data ∧
      headIsLower "123".data = false ∧
      pascalCase stdTable (camelCase stdTable "123".data) = "123".data ∧
      headIsUpper "123".data = false := by decide

/-- C7 (amended): for every input whose segmentation is non-empty and
whose first token begins with an ASCII letter, the first character of
`camelCase (pascalCase T)` is a lowercase letter and the first character
of `pascalCase (camelCase T)` is an uppercase letter. -/
theorem c7_case_roundtrip_heads (l t t' : List Char) (ts : List (List Char))
    (c : Char) (hw : words stdTable l = t :: ts) (ht : t = c :: t')
    (hc : c.isAlpha = true) :
    headIsLower (camelCase stdTable (pascalCase stdTable l)) = true ∧
      headIsUpper (pascalCase stdTable (camelCase stdTable l)) = true := by
  have hcU : (c.toUpper).isUpper = true := by
    simp only [Char.isAlpha, Bool.or_eq_true] at hc
    rcases hc with h | h
    · rw [toUpper_of_not_lower (isLower_of_isUpper h)]
      exact h
    · exact isUpper_toUpper h
  have hcL : (c.toLower).isLower = true := isLower_toLower_of_alpha hc
  constructor
  · obtain ⟨M, hps⟩ := pascalCase_shape hw ht
    rw [hps]
    have hm : matchableChar stdTable (c.toUpper) = true := by
      simp [matchableChar, stdTable, hcU]
    obtain ⟨r2, hcc⟩ := camelCase_head hm
    rw [hcc, headIsLower]
    exact isLower_toLower hcU
  · obtain ⟨M, hcs⟩ := camelCase_shape hw ht
    rw [hcs]
    have hm : matchableChar stdTable (c.toLower) = true := by
      simp [matchableChar, stdTable, hcL]
    obtain ⟨r2, hpc⟩ := pascalCase_head hm
    rw [hpc, headIsUpper]
    exact isUpper_toUpper hcL

/-- Witness for C7 (amended) at `"hello"`. -/
theorem c7_case_roundtrip_heads_witness :
    (words stdTable "hello".data = "hello".data :: [] ∧
      "hello".data = 'h' :: "ello".data ∧ ('h').isAlpha = true) ∧
    (headIsLower (camelCase stdTable (pascalCase stdTable "hello".data)) = true ∧
      headIsUpper (pascalCase stdTable (camelCase stdTable "hello".data)) = true) :=
  ⟨⟨by decide, by decide, by decide⟩,
    c7_case_roundtrip_heads "hello".data "hello".data "ello".data [] 'h'
      (by decide) (by decide) (by decide)⟩

end Strkit
